import Mathlib

/-!
Shallow embedding of the sailing-scheduler repository
(src/sailing_scheduler: models.py, validator.py, generator.py) together
with theorems settling the specification claims.

Conventions used throughout:
* Python Competitor objects hash and compare by id alone, so a
  competitor is embedded as its id, a natural number.
* Python frozensets of competitors are observed only through membership
  tests and cardinalities; they are embedded as deduplicated lists.
* A Python computation that can raise an uncaught exception (IndexError,
  KeyError, ValueError) is embedded in Option, with none as the raised
  exception.
* The module constants of models.py, which the driver scripts rebind for
  the three documented presets, are gathered in a Config value.
* Calls of the random module are abstracted as oracle parameters: a
  theorem quantified over every oracle covers every run of the seeded
  generator.
-/

namespace Sailing

/-- A competitor, identified by its id (Python Competitor equality and
hashing use only the id; names never influence the scheduler). -/
abbrev Comp := Nat

/-- models.BoatSet. -/
inductive BoatSet where
  | A
  | B
deriving DecidableEq

/-- models.Team: an ordered pair of competitors; the order is the
boat-column assignment and is semantically meaningful. -/
structure Team where
  competitor1 : Comp
  competitor2 : Comp
deriving DecidableEq

/-- Team.competitors (a frozenset of size one or two) as a deduplicated
list. -/
def Team.memberList (t : Team) : List Comp :=
  if t.competitor1 = t.competitor2 then [t.competitor1]
  else [t.competitor1, t.competitor2]

/-- Membership test in Team.competitors. -/
def Team.hasMem (t : Team) (c : Comp) : Bool :=
  c == t.competitor1 || c == t.competitor2

/-- models.Race. -/
structure Race where
  race_number : Nat
  boat_set : BoatSet
  team_a : Team
  team_b : Team
deriving DecidableEq

/-- Membership in Race.all_competitors. -/
def Race.hasCompetitor (r : Race) (c : Comp) : Bool :=
  r.team_a.hasMem c || r.team_b.hasMem c

/-- Race.all_competitors (frozenset union of the two teams) as a
deduplicated list. -/
def Race.allCompetitorsList (r : Race) : List Comp :=
  (r.team_a.memberList ++ r.team_b.memberList).dedup

/-- models.Schedule. -/
structure Schedule where
  races : List Race
  competitors : List Comp
deriving DecidableEq

/-- Schedule.get_races_for_competitor. -/
def Schedule.getRacesForCompetitor (s : Schedule) (c : Comp) : List Race :=
  s.races.filter (fun r => r.hasCompetitor c)

/-- Insertion step of the embedding of Python sorted on integers. -/
def insertNat (x : Nat) : List Nat → List Nat
  | [] => [x]
  | y :: ys => if y < x then y :: insertNat x ys else x :: y :: ys

/-- Python sorted on a list of integers. -/
def sortNat (l : List Nat) : List Nat := l.foldr insertNat []

/-- Schedule.get_race_numbers_for_competitor (sorted). -/
def Schedule.getRaceNumbersForCompetitor (s : Schedule) (c : Comp) : List Nat :=
  sortNat ((s.getRacesForCompetitor c).map (fun r => r.race_number))

/-- The members of a team other than c, contributed to the teammate list
only when c is a member (the loop body of get_teammates_for_competitor
for one team). -/
def Team.othersFor (t : Team) (c : Comp) : List Comp :=
  if t.hasMem c then t.memberList.filter (fun x => x != c) else []

/-- Schedule.get_teammates_for_competitor: teammates with multiplicity,
in race order, team_a before team_b. -/
def Schedule.getTeammatesForCompetitor (s : Schedule) (c : Comp) : List Comp :=
  (s.getRacesForCompetitor c).flatMap
    (fun r => r.team_a.othersFor c ++ r.team_b.othersFor c)

/-- The module constants of models.py.  The checked-in default values
are those of models.py itself; the driver scripts rebind them to the
documented presets before reloading the core modules. -/
structure Config where
  numCompetitors : Nat
  numRaces : Nat
  racesPerCompetitor : Nat
  minRacesPerCompetitor : Nat
  competitorsPerRound : Nat
  positionsPerBoat : Nat

/-- The constants checked in to models.py (21 competitors, 90 races,
10-position chain). -/
def defaultConfig : Config := ⟨21, 90, 18, 16, 20, 10⟩

/-- The preset installed by scripts/generate_24_competitors_96_races.py. -/
def config24 : Config := ⟨24, 96, 16, 16, 24, 12⟩

/-- The preset installed by scripts/generate_25_competitors_96_races.py. -/
def config25 : Config := ⟨25, 96, 16, 14, 24, 12⟩

/-- The preset installed by scripts/generate_23_competitors_90_races.py. -/
def config23 : Config := ⟨23, 90, 16, 14, 20, 10⟩

/-- The roster built at the top of generate_schedule:
competitors 0 .. N-1. -/
def rosterList (cfg : Config) : List Comp := List.range cfg.numCompetitors

/-! ### validator.py -/

/-- Total duplicate pairings of one competitor:
sum(count - 1 for count in Counter(teammates).values() if count > 1).
Truncated subtraction makes the count > 1 guard redundant. -/
def dupCount (tms : List Comp) : Nat :=
  ((tms.dedup).map (fun t => tms.count t - 1)).sum

/-- Whether some teammate occurs more than twice (the bad_duplicates test
of check_unique_teammates). -/
def hasTripleTeammate (tms : List Comp) : Bool :=
  (tms.dedup).any (fun t => 2 < tms.count t)

/-- Duplicate teammate pairings summed over the roster of the schedule. -/
def totalDuplicates (s : Schedule) : Nat :=
  (s.competitors.map (fun c => dupCount (s.getTeammatesForCompetitor c))).sum

/-- validator.check_unique_teammates; passed is the emptiness of the
error list, i.e. no competitor has a teammate three or more times and
the total duplicate count is at most NUM_COMPETITORS. -/
def checkUniqueTeammates (cfg : Config) (s : Schedule) : Bool :=
  !(s.competitors.any (fun c => hasTripleTeammate (s.getTeammatesForCompetitor c)))
    && decide (totalDuplicates s ≤ cfg.numCompetitors)

/-- The opponents list built by check_opponent_diversity: for each race
of c, the members of the opposing team (team-a membership decides the
branch, mirroring the source). -/
def Schedule.opponentsFor (s : Schedule) (c : Comp) : List Comp :=
  (s.getRacesForCompetitor c).flatMap
    (fun r => if r.team_a.hasMem c then r.team_b.memberList else r.team_a.memberList)

/-- len(set(opponents)). -/
def uniqueOpponents (s : Schedule) (c : Comp) : Nat :=
  ((s.opponentsFor c).dedup).length

/-- validator.check_opponent_diversity: an error is recorded for a
competitor with fewer than 12 unique opponents, except when the
opponents list is empty; passed is the emptiness of the error list.
The threshold 12 is the hard-coded min_unique_opponents constant. -/
def checkOpponentDiversity (s : Schedule) : Bool :=
  !(s.competitors.any (fun c =>
    decide (uniqueOpponents s c < 12) && decide (0 < (s.opponentsFor c).length)))

/-- validator._count_outings: greedy left-to-right grouping of a sorted
race-number list into step-2 pairs.  Returns
(single_race_outings, double_race_outings). -/
def countOutingsGo (a : Nat) : List Nat → Nat × Nat
  | [] => (1, 0)
  | b :: rest =>
    if b = a + 2 then
      match rest with
      | [] => (0, 1)
      | c :: rest2 =>
        let p := countOutingsGo c rest2
        (p.1, p.2 + 1)
    else
      let p := countOutingsGo b rest
      (p.1 + 1, p.2)

/-- Entry point of _count_outings. -/
def countOutings : List Nat → Nat × Nat
  | [] => (0, 0)
  | a :: rest => countOutingsGo a rest

/-- Total single outings over the schedule roster. -/
def totalSingleOutings (s : Schedule) : Nat :=
  (s.competitors.map
    (fun c => (countOutings (s.getRaceNumbersForCompetitor c)).1)).sum

/-- validator.check_two_race_outings: passes when the total single
outings stay within NUM_COMPETITORS * (RACES_PER_COMPETITOR // 4). -/
def checkTwoRaceOutings (cfg : Config) (s : Schedule) : Bool :=
  decide (totalSingleOutings s ≤ cfg.numCompetitors * (cfg.racesPerCompetitor / 4))

/-! ### generator.py: boat positions and team formation -/

/-- The four boat columns returned by generator._get_boat_position. -/
inductive BoatPosition where
  | a1
  | a2
  | b1
  | b2
deriving DecidableEq

/-- generator._get_boat_position. -/
def getBoatPosition (r : Race) (c : Comp) : Option BoatPosition :=
  if r.team_a.competitor1 = c then some .a1
  else if r.team_a.competitor2 = c then some .a2
  else if r.team_b.competitor1 = c then some .b1
  else if r.team_b.competitor2 = c then some .b2
  else none

/-- The used_teammates map (dict of sets in the source, total on ids as
the claim and the generator maintain it). -/
abbrev Used := Comp → Comp → Bool

/-- The three candidate formations enumerated by
generator._form_teams_optimally, in source order. -/
def formationsOf (c0 c1 c2 c3 : Comp) : List ((Comp × Comp) × (Comp × Comp)) :=
  [((c0, c1), (c2, c3)), ((c0, c2), (c1, c3)), ((c0, c3), (c1, c2))]

/-- The score of a formation: one point per teammate pair already in
used_teammates (the membership test is directional exactly as in the
source, which maintains the map symmetrically). -/
def formationScore (u : Used) (f : (Comp × Comp) × (Comp × Comp)) : Nat :=
  (if u f.1.1 f.1.2 then 1 else 0) + (if u f.2.1 f.2.2 then 1 else 0)

/-- Builds the Team pair of a formation. -/
def mkTeams (f : (Comp × Comp) × (Comp × Comp)) : Team × Team :=
  (⟨f.1.1, f.1.2⟩, ⟨f.2.1, f.2.2⟩)

/-- generator._form_teams_optimally.  The Python float('inf') initial
best is embedded as a none accumulator; unpacking a list that does not
have exactly four elements raises in Python and is embedded as none. -/
def formTeamsOptimally (rc : List Comp) (u : Used) : Option (Team × Team) :=
  match rc with
  | [c0, c1, c2, c3] =>
    let best := (formationsOf c0 c1 c2 c3).foldl
      (fun acc f =>
        match acc with
        | none => some (f, formationScore u f)
        | some (bf, bs) =>
          if formationScore u f < bs then some (f, formationScore u f)
          else some (bf, bs))
      none
    match best with
    | some (f, _) => some (mkTeams f)
    | none => none
  | _ => none

/-- The symmetric used_teammates update for one team
(used[c].add(other) for every ordered pair of distinct members). -/
def updateUsedTeam (u : Used) (t : Team) : Used := fun a b =>
  u a b || (t.hasMem a && t.hasMem b && !(a == b))

/-- The used_teammates update performed after forming the two teams of a
race. -/
def updateUsed (u : Used) (ta tb : Team) : Used :=
  updateUsedTeam (updateUsedTeam u ta) tb

/-- The chain of six seat groups hard-coded throughout generator.py for
the 12-position boats. -/
def chainGroups12 : List (List Nat) :=
  [[0, 1, 2, 3], [2, 3, 4, 5], [4, 5, 6, 7], [6, 7, 8, 9],
   [8, 9, 10, 11], [10, 11, 0, 1]]

/-- The list comprehension [boat_competitors[i] for i in indices]:
an out-of-range index raises IndexError, embedded as none. -/
def mapIndex (comps : List Comp) : List Nat → Option (List Comp)
  | [] => some []
  | i :: t => do
    let c ← comps[i]?
    let cs ← mapIndex comps t
    some (c :: cs)

/-- generator._generate_chain_races_careful, as a recursion over the
race-number list with the running chain index.  Indexing chain or
boat_competitors out of range raises in Python and is embedded as
none. -/
def generateChainRacesGo (bs : BoatSet) :
    List Nat → Nat → List Comp → Used → Option (List Race × Used)
  | [], _, _, u => some ([], u)
  | n :: rest, idx, comps, u => do
    let g ← chainGroups12[idx]?
    let rc ← mapIndex comps g
    let (ta, tb) ← formTeamsOptimally rc u
    let u1 := updateUsed u ta tb
    let (races, u2) ← generateChainRacesGo bs rest (idx + 1) comps u1
    some (Race.mk n bs ta tb :: races, u2)

/-- generator._generate_chain_races_careful (entry point). -/
def generateChainRacesCareful (bs : BoatSet) (nums : List Nat)
    (comps : List Comp) (u : Used) : Option (List Race × Used) :=
  generateChainRacesGo bs nums 0 comps u

/-! ### generator.py: the alignment optimiser -/

/-- Stable insertion (by race number) used to embed Python's stable
list.sort(key=race_number): an element is inserted before the first
strictly greater key, hence after equal keys of the already-sorted
suffix, which together with the foldr orientation reproduces stable
sorting. -/
def insertRace (r : Race) : List Race → List Race
  | [] => [r]
  | s :: rest =>
    if s.race_number < r.race_number then s :: insertRace r rest
    else r :: s :: rest

/-- Python sorted / list.sort by race_number (stable). -/
def sortByNum (l : List Race) : List Race := l.foldr insertRace []

/-- generator._swap_within_team_a. -/
def swapWithinTeamA (r : Race) : Race :=
  { race_number := r.race_number, boat_set := r.boat_set,
    team_a := ⟨r.team_a.competitor2, r.team_a.competitor1⟩,
    team_b := r.team_b }

/-- generator._swap_within_team_b. -/
def swapWithinTeamB (r : Race) : Race :=
  { race_number := r.race_number, boat_set := r.boat_set,
    team_a := r.team_a,
    team_b := ⟨r.team_b.competitor2, r.team_b.competitor1⟩ }

/-- The race1_variants / race2_variants list of
_optimize_double_outings, in source order. -/
def raceVariants (r : Race) : List Race :=
  [r, swapWithinTeamA r, swapWithinTeamB r, swapWithinTeamB (swapWithinTeamA r)]

/-- The two shared competitors of an adjacent pair:
list(set(race1) & set(race2)), skipped unless exactly two.  CPython's
set iteration order is unspecified; the embedding takes race1's member
order, and every later computation is symmetric in the two shared
competitors, so the choice is immaterial. -/
def sharedPair (r1 r2 : Race) : Option (Comp × Comp) :=
  match r1.allCompetitorsList.filter (fun c => r2.hasCompetitor c) with
  | [c1, c2] => some (c1, c2)
  | _ => none

/-- The aligned count of a combination: Python booleans added as
integers; a None = None position comparison also counts. -/
def alignedCount (r1 r2 : Race) (c1 c2 : Comp) : Nat :=
  (if getBoatPosition r1 c1 = getBoatPosition r2 c1 then 1 else 0) +
  (if getBoatPosition r1 c2 = getBoatPosition r2 c2 then 1 else 0)

/-- The inner loop of the 16-combination search: fold over the race2
variants for a fixed race1 variant, keeping strict improvements. -/
def bestComboInner (c1 c2 : Comp) (v1 : Race) (acc : Race × Race × Nat)
    (vs : List Race) : Race × Race × Nat :=
  vs.foldl
    (fun acc v2 =>
      if acc.2.2 < alignedCount v1 v2 c1 c2 then (v1, v2, alignedCount v1 v2 c1 c2)
      else acc)
    acc

/-- The full 16-combination search of _optimize_double_outings
(race1 variants outer, race2 variants inner, strict improvement over the
current aligned count). -/
def bestCombo (r1 r2 : Race) (c1 c2 : Comp) : Race × Race × Nat :=
  (raceVariants r1).foldl
    (fun acc v1 => bestComboInner c1 c2 v1 acc (raceVariants r2))
    (r1, r2, alignedCount r1 r2 c1 c2)

/-- The body of the adjacent-pair loop: returns the (possibly swapped)
pair and whether an improvement was applied. -/
def processPair (r1 r2 : Race) : Race × Race × Bool :=
  match sharedPair r1 r2 with
  | none => (r1, r2, false)
  | some (c1, c2) =>
    let cur := alignedCount r1 r2 c1 c2
    if cur = 2 then (r1, r2, false)
    else
      let b := bestCombo r1 r2 c1 c2
      if cur < b.2.2 then (b.1, b.2.1, true) else (r1, r2, false)

/-- One index step of a pass: read races i and i+1 of the current group
list, process the pair, write both positions back on improvement. -/
def passStep (L : List Race) (i : Nat) : List Race × Bool :=
  match L[i]?, L[i + 1]? with
  | some r1, some r2 =>
    let p := processPair r1 r2
    if p.2.2 then ((L.set i p.1).set (i + 1) p.2.1, true) else (L, false)
  | _, _ => (L, false)

/-- One pass over one boat-set group (the for-i loop; the range bound is
the group length, which no step changes). -/
def passOnce (L : List Race) : List Race × Bool :=
  (List.range (L.length - 1)).foldl
    (fun acc i =>
      let p := passStep acc.1 i
      (p.1, acc.2 || p.2))
    (L, false)

/-- The fold underlying passOnce, exposed over an arbitrary index list
for reasoning about pass prefixes. -/
def passFold (st : List Race × Bool) (idxs : List Nat) : List Race × Bool :=
  idxs.foldl
    (fun acc i =>
      let p := passStep acc.1 i
      (p.1, acc.2 || p.2))
    st

/-- The numeric order on races used by the sortedness arguments. -/
def leNum (a b : Race) : Prop := a.race_number ≤ b.race_number

/-- Sortedness by race number. -/
def sortedByNum (l : List Race) : Prop := List.Pairwise leNum l

/-- The up-to-five passes over both boat groups, stopping early when a
pass improves nothing (the shared improved flag covers both groups). -/
def passes : Nat → List Race → List Race → List Race × List Race
  | 0, a, b => (a, b)
  | n + 1, a, b =>
    let pa := passOnce a
    let pb := passOnce b
    if pa.2 || pb.2 then passes n pa.1 pb.1 else (pa.1, pb.1)

/-- generator._optimize_double_outings: group by boat set in order, sort
each group by race number, run up to five passes, and re-sort the
concatenation by race number. -/
def optimizeDoubleOutings (races : List Race) : List Race :=
  let a0 := sortByNum (races.filter (fun r => r.boat_set == BoatSet.A))
  let b0 := sortByNum (races.filter (fun r => r.boat_set == BoatSet.B))
  let p := passes 5 a0 b0
  sortByNum (p.1 ++ p.2)

/-- Everything the alignment optimiser must preserve about a race: its
number, its boat set and the two unordered team memberships. -/
def raceKey (r : Race) : Nat × BoatSet × Finset Comp × Finset Comp :=
  (r.race_number, r.boat_set,
   {r.team_a.competitor1, r.team_a.competitor2},
   {r.team_b.competitor1, r.team_b.competitor2})

/-- The four slots of a race in column order. -/
def Race.slotList (r : Race) : List Comp :=
  [r.team_a.competitor1, r.team_a.competitor2,
   r.team_b.competitor1, r.team_b.competitor2]

/-- The Race invariant of the data model: the four competitors involved
are pairwise distinct. -/
def Race.distinctFour (r : Race) : Prop := r.slotList.Nodup

instance (r : Race) : Decidable r.distinctFour :=
  inferInstanceAs (Decidable r.slotList.Nodup)

/-- The slot pattern of a competitor in a race: which of the four
columns hold it.  _get_boat_position and the team swaps factor through
this abstraction. -/
abbrev Pat := Bool × Bool × Bool × Bool

/-- The slot pattern of c in r. -/
def patOf (r : Race) (c : Comp) : Pat :=
  (r.team_a.competitor1 == c, r.team_a.competitor2 == c,
   r.team_b.competitor1 == c, r.team_b.competitor2 == c)

/-- _get_boat_position as a function of the slot pattern. -/
def posFromPat : Pat → Option BoatPosition
  | (p, q, s, t) =>
    if p then some .a1 else if q then some .a2
    else if s then some .b1 else if t then some .b2 else none

/-- Effect of _swap_within_team_a on a slot pattern. -/
def swapFstPat : Pat → Pat
  | (p, q, s, t) => (q, p, s, t)

/-- Effect of _swap_within_team_b on a slot pattern. -/
def swapSndPat : Pat → Pat
  | (p, q, s, t) => (p, q, t, s)

/-- The pattern transforms matching the four race variants. -/
def variantTransforms : List (Pat → Pat) :=
  [id, swapFstPat, swapSndPat, fun p => swapSndPat (swapFstPat p)]

/-- The aligned count as a function of the four slot patterns. -/
def alignedP (p1 p2 q1 q2 : Pat) : Nat :=
  (if posFromPat p1 = posFromPat p2 then 1 else 0) +
  (if posFromPat q1 = posFromPat q2 then 1 else 0)

/-- Number of slots of a pattern that hold the competitor. -/
def patTrues (p : Pat) : Nat :=
  (if p.1 then 1 else 0) + (if p.2.1 then 1 else 0) +
  (if p.2.2.1 then 1 else 0) + (if p.2.2.2 then 1 else 0)

/-- The best aligned count reachable by varying race2 only, at the
pattern level. -/
def maxAlignedFst (p1 q1 p2 q2 : Pat) : Nat :=
  (variantTransforms.map (fun g => alignedP p1 (g p2) q1 (g q2))).foldl max 0

/-! ### generator.py: acceptance gate, score and seed loop -/

/-- The proper-double-outing walk of generate_schedule (lines 113-123):
scan the competitor's races sorted by number; a same-boat-set pair at
distance two consumes both races and scores one when the competitor
keeps the same boat column. -/
def properWalkGo (c : Comp) : Race → List Race → Nat
  | _, [] => 0
  | r1, r2 :: rest =>
    if r1.boat_set = r2.boat_set ∧ r2.race_number = r1.race_number + 2 then
      (if getBoatPosition r1 c = getBoatPosition r2 c then 1 else 0) +
        (match rest with
         | [] => 0
         | r3 :: rest2 => properWalkGo c r3 rest2)
    else
      properWalkGo c r2 rest

/-- Entry point of the proper-double-outing walk. -/
def properWalk (c : Comp) : List Race → Nat
  | [] => 0
  | r :: rest => properWalkGo c r rest

/-- Proper double outings of one competitor. -/
def properCompetitorCount (s : Schedule) (c : Comp) : Nat :=
  properWalk c (sortByNum (s.getRacesForCompetitor c))

/-- The candidate score of generate_schedule: proper double outings
summed over the roster (the roster variable, not the schedule field). -/
def properDoubleOutingsTotal (roster : List Comp) (s : Schedule) : Nat :=
  (roster.map (properCompetitorCount s)).sum

/-- max over a nonempty list; Python max() raises ValueError on an empty
sequence, embedded as none. -/
def listMax? : List Nat → Option Nat
  | [] => none
  | x :: xs => some (xs.foldl max x)

/-- The opponent-diversity stage of the acceptance gate
(generate_schedule lines 74-84): min_opponents starts at the hard-coded
24 and is folded over the roster. -/
def gateMinOpponents (roster : List Comp) (s : Schedule) : Nat :=
  roster.foldl (fun m c => min m (uniqueOpponents s c)) 24

/-- The duplicate-teammate stage of the acceptance gate
(generate_schedule lines 91-99): accumulates the duplicate total and the
maximal repeat count; max() of an empty Counter raises, embedded as
none. -/
def gateDupFold (s : Schedule) : List Comp → Nat → Nat → Option (Nat × Nat)
  | [], tot, mx => some (tot, mx)
  | c :: rest, tot, mx =>
    let tms := s.getTeammatesForCompetitor c
    match listMax? ((tms.dedup).map (fun t => tms.count t)) with
    | none => none
    | some m => gateDupFold s rest (tot + dupCount tms) (max mx (m - 1))

/-- The acceptance gate of generate_schedule: a candidate is accepted
when min_opponents is at least 12 and neither duplicate bound is
exceeded; the opponent check runs first, exactly as in the source. -/
def acceptanceGate (cfg : Config) (roster : List Comp) (s : Schedule) : Option Bool :=
  if gateMinOpponents roster s < 12 then some false
  else
    match gateDupFold s roster 0 0 with
    | none => none
    | some (tot, mx) =>
      some (!(decide (cfg.numCompetitors < tot) || decide (1 < mx)))

/-- One iteration of the seed loop of generate_schedule, acting on the
running (best_schedule, best_proper_double_outings) pair.  The attempt
oracle stands for _try_generate_chain_schedule followed by
_optimize_double_outings under the seeded randomness; none from the gate
is an uncaught exception. -/
def seedStep (cfg : Config) (attempt : Nat → Option Schedule)
    (acc : Option Schedule × Nat) (seed : Nat) : Option (Option Schedule × Nat) :=
  match attempt seed with
  | none => some acc
  | some sched =>
    match acceptanceGate cfg (rosterList cfg) sched with
    | none => none
    | some false => some acc
    | some true =>
      let sc := properDoubleOutingsTotal (rosterList cfg) sched
      if acc.2 < sc then some (some sched, sc) else some acc

/-- The seed loop, folded over the seeds actually tried (the timeout and
max_seeds bound of the source determine how many seeds run; the budget
parameter stands for that number). -/
def runSeedsGo (cfg : Config) (attempt : Nat → Option Schedule) :
    List Nat → (Option Schedule × Nat) → Option (Option Schedule × Nat)
  | [], acc => some acc
  | s :: rest, acc =>
    match seedStep cfg attempt acc s with
    | none => none
    | some acc2 => runSeedsGo cfg attempt rest acc2

/-- The seed loop of generate_schedule.  The overall result is
some (some sched) when a best schedule is returned, some none when the
loop completes without one (the terminal RuntimeError), and none when an
iteration raises. -/
def generateScheduleLoop (cfg : Config) (attempt : Nat → Option Schedule)
    (budget : Nat) : Option (Option Schedule) :=
  match runSeedsGo cfg attempt (List.range budget) (none, 0) with
  | none => none
  | some (best, _) => some best

/-! ### Concrete schedules used as claim counterexamples and witnesses -/

/-- Convenience race constructor. -/
def mkRace (n : Nat) (bs : BoatSet) (a1 a2 b1 b2 : Comp) : Race :=
  ⟨n, bs, ⟨a1, a2⟩, ⟨b1, b2⟩⟩

/-- A 21-competitor roster with no races: every competitor trivially
escapes the opponent-diversity error because its opponents list is
empty. -/
def cexEmpty : Schedule := ⟨[], List.range 21⟩

/-- A 24-competitor schedule in which competitors 0 and 1 (and 2 and 3)
are teammates twice: four duplicate pairings in total. -/
def dupSched : Schedule :=
  ⟨[mkRace 1 .A 0 1 2 3, mkRace 3 .A 0 1 2 3], List.range 24⟩

/-- A 21-competitor schedule with 88 single outings: competitors 0-3
race in the 22 consecutively numbered races, so the greedy grouping
finds no step-2 pair at all. -/
def cexOutings : Schedule :=
  ⟨(List.range 22).map (fun i => mkRace (i + 1) .A 0 1 2 3), List.range 21⟩

/-! ### generator.py: _try_generate_chain_schedule and the per-seed
candidate of generate_schedule -/

/-- The six boat-A race numbers of a round:
round_start + i * 2 with round_start = round_num * 12 + 1. -/
def boatANums (roundNum : Nat) : List Nat :=
  (List.range 6).map (fun i => roundNum * 12 + 1 + i * 2)

/-- The six boat-B race numbers of a round: round_start + 1 + i * 2. -/
def boatBNums (roundNum : Nat) : List Nat :=
  (List.range 6).map (fun i => roundNum * 12 + 1 + 1 + i * 2)

/-- The round loop of _try_generate_chain_schedule.  The sit-out choice
and _find_round_assignment of each round are abstracted into the asg
oracle (their outcome depends on the seeded randomness and the running
bookkeeping, which the enclosing theorems quantify over); none stands
for the `return None` recovery of the source.  Each round appends the
six boat-A races and then the six boat-B races, threading
used_teammates through the two chain builders. -/
def tryGenGo (asg : Nat → Option (List Comp × List Comp)) :
    Nat → Nat → Used → Option (List Race)
  | 0, _, _ => some []
  | n + 1, roundNum, u => do
    let (ac, bc) ← asg roundNum
    let (ar, u1) ← generateChainRacesCareful BoatSet.A (boatANums roundNum) ac u
    let (br, u2) ← generateChainRacesCareful BoatSet.B (boatBNums roundNum) bc u1
    let rest ← tryGenGo asg n (roundNum + 1) u2
    some (ar ++ br ++ rest)

/-- generator._try_generate_chain_schedule: num_rounds = NUM_RACES // 12
rounds starting from an empty used_teammates map, followed by
races.sort(key=race_number). -/
def tryGenerateChainSchedule (cfg : Config)
    (asg : Nat → Option (List Comp × List Comp)) : Option (List Race) :=
  (tryGenGo asg (cfg.numRaces / 12) 0 (fun _ _ => false)).map sortByNum

/-- The candidate race list built by one seed of generate_schedule
(lines 66-69): the chain schedule followed by the alignment
optimiser. -/
def generateAttempt (cfg : Config)
    (asg : Nat → Option (List Comp × List Comp)) : Option (List Race) :=
  (tryGenerateChainSchedule cfg asg).map optimizeDoubleOutings

/-- The (race number, boat set) view of a race: the data constrained by
the race-sequence invariant. -/
def numBoat (r : Race) : Nat × BoatSet := (r.race_number, r.boat_set)

/-- Strict race-number order on that view. -/
def numLt (p q : Nat × BoatSet) : Prop := p.1 < q.1

instance : IsAntisymm (Nat × BoatSet) numLt :=
  ⟨fun _ _ h1 h2 => absurd (Nat.lt_trans h1 h2) (Nat.lt_irrefl _)⟩

/-- A 12-race, one-round configuration used to instantiate the
race-sequence theorem on concrete data. -/
def c5Cfg : Config := ⟨24, 12, 1, 1, 24, 12⟩

/-- A constant assignment oracle: boat A seats competitors 0-11, boat B
seats competitors 12-23, every round. -/
def c5Asg : Nat → Option (List Comp × List Comp) :=
  fun _ => some (List.range 12, (List.range 12).map (fun i => 12 + i))

/-- The concrete candidate generated from that oracle. -/
def c5Races : List Race := (generateAttempt c5Cfg c5Asg).getD []

/-! ### Concrete driver-loop inputs for the best-candidate claim -/

/-- A one-competitor rebinding of the module constants: the driver loop
and its gate read only NUM_COMPETITORS from them. -/
def cfg1 : Config := ⟨1, 24, 16, 14, 24, 12⟩

/-- A gate-passing schedule for cfg1 whose proper-double-outing score is
zero: competitor 0 races seven times with fresh teammates and fresh
opponents in seven consecutively numbered races, so no race pair lies
at distance two. -/
def z1 : Schedule :=
  ⟨(List.range 7).map
      (fun i => mkRace (i + 1) .A 0 (100 + i) (200 + i) (300 + i)),
   List.range 1⟩

/-- A gate-passing schedule for cfg1 with one proper double outing:
competitor 0 keeps column a1 in races 1 and 3, and pads its opponent
list with six further consecutively numbered races. -/
def posSched : Schedule :=
  ⟨mkRace 1 .A 0 100 200 300 :: mkRace 3 .A 0 101 201 301 ::
     (List.range 6).map
       (fun i => mkRace (10 + i) .A 0 (110 + i) (210 + i) (310 + i)),
   List.range 1⟩

/-! ### generator.py: _find_round_assignment -/

/-- The ordered seat pairs (i, j), i before j, of one chain group, in
the order of the nested loops of count_conflicts. -/
def pairsOf : List Nat → List (Nat × Nat)
  | [] => []
  | x :: t => t.map (fun y => (x, y)) ++ pairsOf t

/-- count_conflicts restricted to one pair list; indexing the ordering
out of range raises IndexError, embedded as none. -/
def ccPairs (u : Used) (ord : List Nat) : List (Nat × Nat) → Option Nat
  | [] => some 0
  | (i, j) :: rest => do
    let c1 ← ord[i]?
    let c2 ← ord[j]?
    let t ← ccPairs u ord rest
    some ((if u c1 c2 then 1 else 0) + t)

/-- count_conflicts over the seat groups. -/
def ccGroups (u : Used) (ord : List Nat) : List (List Nat) → Option Nat
  | [] => some 0
  | g :: rest => do
    let s ← ccPairs u ord (pairsOf g)
    let t ← ccGroups u ord rest
    some (s + t)

/-- count_conflicts (generator.py lines 370-378): one point per seat
pair of each chain group already related by used_teammates.  The
summation order differs from the nested loops of the source; the
summands, and the set of list accesses that can raise, do not. -/
def countConflicts (u : Used) (ord : List Nat) : Option Nat :=
  ccGroups u ord chainGroups12

/-- The tuple swap new[i], new[j] = new[j], new[i]: both reads are
performed, so an out-of-range index raises. -/
def swapIdx (l : List Nat) (i j : Nat) : Option (List Nat) := do
  let a ← l[i]?
  let b ← l[j]?
  some ((l.set i b).set j a)

/-- any(ordering[i] in forbidden for i in range(4)) evaluated lazily,
exactly as Python's any short-circuits. -/
def anyForbGo (forb ord : List Nat) : List Nat → Option Bool
  | [] => some false
  | i :: rest => do
    let c ← ord[i]?
    if forb.contains c then some true else anyForbGo forb ord rest

/-- is_valid_a / is_valid_b (lines 380-388). -/
def isValidOrd (forb ord : List Nat) : Option Bool :=
  if forb.isEmpty then some true
  else do
    let v ← anyForbGo forb ord [0, 1, 2, 3]
    some (!v)

/-- The violation comprehension of the repair blocks:
[i for i in range(4) if boat[i] in forbidden] touches all four indices;
only its nonemptiness is consumed. -/
def violation03 (forb ord : List Nat) : Option Bool := do
  let c0 ← ord[0]?
  let c1 ← ord[1]?
  let c2 ← ord[2]?
  let c3 ← ord[3]?
  some (forb.contains c0 || forb.contains c1
    || forb.contains c2 || forb.contains c3)

/-- The reorder [pos[2], pos[3], pos[0], pos[1]], applied only when the
0-3 block has exactly four members. -/
def reorder03 : List Nat → List Nat
  | [a, b, c, d] => [c, d, a, b]
  | l => l

/-- Lines 279-339 of generator.py: the position-aware construction of
the two 12-seat orderings.  sh n stands for the n-th sorted(...) call
site of the function; every such call orders its input by
(race_counts, random tiebreak) and therefore returns a permutation of
it, which is all the theorems assume about it. -/
def buildBoats (sh : Nat → List Nat → List Nat)
    (active aForb bForb : List Nat) : List Nat × List Nat :=
  let sorted_ids := sh 0 active
  let allowedA := sorted_ids.filter (fun c => !aForb.contains c)
  let forbiddenA := sorted_ids.filter (fun c => aForb.contains c)
  let boatA03 := allowedA.take 4
  let remainingAllowedA := allowedA.drop 4
  let remainingForA := sh 1 (remainingAllowedA ++ forbiddenA)
  let boatA411 := remainingForA.take 8
  let remainingForB := remainingForA.drop 8
  let boatA := reorder03 boatA03 ++ boatA411
  let allowedB := remainingForB.filter (fun c => !bForb.contains c)
  let forbiddenB := remainingForB.filter (fun c => bForb.contains c)
  let allowedB2 := sh 2 allowedB
  let forbiddenB2 := sh 3 forbiddenB
  let boatB03 := allowedB2.take 4
  let remainingB := sh 4 (allowedB2.drop 4 ++ forbiddenB2)
  let boatB411 := remainingB.take 8
  let boatB := reorder03 boatB03 ++ boatB411
  (boatA, boatB)

/-- Lines 342-346: if either boat list misses its 12 seats, fall back
to a plain sorted split of the active ids (which cannot help when fewer
than 24 ids are active). -/
def fallbackBoats (sh : Nat → List Nat → List Nat) (active : List Nat)
    (ab : List Nat × List Nat) : List Nat × List Nat :=
  if ab.1.length ≠ 12 ∨ ab.2.length ≠ 12 then
    let all := sh 5 active
    (all.take 12, all.drop 12)
  else ab

/-- Lines 348-365: move four safe members to the front when the 0-3
block violates the boundary constraint; base selects the two sort
oracle slots of the block. -/
def fixBoat (sh : Nat → List Nat → List Nat) (base : Nat)
    (forb boat : List Nat) : Option (List Nat) :=
  if forb.isEmpty then some boat
  else do
    let v ← violation03 forb boat
    if v then
      let safe := boat.filter (fun c => !forb.contains c)
      let forbidden := boat.filter (fun c => forb.contains c)
      let safe2 := sh base safe
      let forbidden2 := sh (base + 1) forbidden
      some (safe2.take 4 ++ forbidden2 ++ safe2.drop 4)
    else some boat

/-- One optimisation loop (lines 394-410 for boat A, 416-431 for boat
B): fuel iterations of swap-and-keep-if-strictly-better.  coin k models
random.random() < 0.3 and pickLow, pickHigh, pickFull the three
random.sample calls at iteration k; base offsets the oracle indices so
the two loops draw independently. -/
def optLoop (u : Used) (forb : List Nat) (coin : Nat → Bool)
    (pickLow pickHigh pickFull : Nat → Nat × Nat) (base : Nat) :
    Nat → List Nat → Nat → Option (List Nat × Nat)
  | 0, best, bestC => some (best, bestC)
  | k + 1, best, bestC => do
    let ij := if !forb.isEmpty then
                (if coin (base + k) then pickLow (base + k)
                 else pickHigh (base + k))
              else pickFull (base + k)
    let newOrd ← swapIdx best ij.1 ij.2
    let ok ← isValidOrd forb newOrd
    if ok then do
      let c ← countConflicts u newOrd
      if c < bestC then
        optLoop u forb coin pickLow pickHigh pickFull base k newOrd c
      else
        optLoop u forb coin pickLow pickHigh pickFull base k best bestC
    else optLoop u forb coin pickLow pickHigh pickFull base k best bestC

/-- generator._find_round_assignment.  The race_counts keys live inside
the sort oracle sh; boat_a_forbidden = prev_adjacent_boundary ∪
prev_boat_a_boundary and boat_b_forbidden = prev_boat_b_boundary arrive
precomputed as lists; used_teammates is total on the ids appearing in
the round, as the caller builds it for every competitor.  A none result
is an uncaught exception: the source has no failing return path of its
own. -/
def findRoundAssignment (sh : Nat → List Nat → List Nat)
    (coin : Nat → Bool) (pickLow pickHigh pickFull : Nat → Nat × Nat)
    (u : Used) (active aForb bForb : List Nat) :
    Option (List Nat × List Nat) := do
  let ab := fallbackBoats sh active (buildBoats sh active aForb bForb)
  let boatA ← fixBoat sh 6 aForb ab.1
  let boatB ← fixBoat sh 8 bForb ab.2
  let bestAC ← countConflicts u boatA
  let ra ← optLoop u aForb coin pickLow pickHigh pickFull 0 1000 boatA bestAC
  let bestBC ← countConflicts u boatB
  let rb ← optLoop u bForb coin pickLow pickHigh pickFull 1000 1000 boatB bestBC
  some (ra.1, rb.1)

end Sailing

namespace Sailing

/-! ### Theorems: team formation (claims C8 and C10) -/

/-- Auxiliary: a fold that starts from none over a nonempty concrete
formation list always produces some value. -/
theorem formTeams_length_four_isSome (rc : List Comp) (u : Used)
    (h : rc.length = 4) : (formTeamsOptimally rc u).isSome = true := by
  match rc, h with
  | [c0, c1, c2, c3], _ =>
    simp only [formTeamsOptimally, formationsOf, List.foldl]
    by_cases h1 : formationScore u ((c0, c2), (c1, c3)) < formationScore u ((c0, c1), (c2, c3))
    · by_cases h2 : formationScore u ((c0, c3), (c1, c2)) < formationScore u ((c0, c2), (c1, c3)) <;>
        simp [h1, h2]
    · by_cases h2 : formationScore u ((c0, c3), (c1, c2)) < formationScore u ((c0, c1), (c2, c3)) <;>
        simp [h1, h2]

/-- Claim C8.  For every group of four competitors and every
used_teammates relation, _form_teams_optimally returns the formation
whose teammate-pair score is minimal among the three enumerated
formations, preferring the earliest formation on ties: the first
formation is chosen iff its score is at most both others, the second iff
it strictly beats the first and is at most the third, and the third iff
it strictly beats both. -/
theorem formTeamsOptimally_picks_first_minimal
    (c0 c1 c2 c3 : Comp) (u : Used) :
    (formTeamsOptimally [c0, c1, c2, c3] u
        = some (mkTeams ((c0, c1), (c2, c3)))
      ∧ formationScore u ((c0, c1), (c2, c3)) ≤ formationScore u ((c0, c2), (c1, c3))
      ∧ formationScore u ((c0, c1), (c2, c3)) ≤ formationScore u ((c0, c3), (c1, c2)))
    ∨ (formTeamsOptimally [c0, c1, c2, c3] u
        = some (mkTeams ((c0, c2), (c1, c3)))
      ∧ formationScore u ((c0, c2), (c1, c3)) < formationScore u ((c0, c1), (c2, c3))
      ∧ formationScore u ((c0, c2), (c1, c3)) ≤ formationScore u ((c0, c3), (c1, c2)))
    ∨ (formTeamsOptimally [c0, c1, c2, c3] u
        = some (mkTeams ((c0, c3), (c1, c2)))
      ∧ formationScore u ((c0, c3), (c1, c2)) < formationScore u ((c0, c1), (c2, c3))
      ∧ formationScore u ((c0, c3), (c1, c2)) < formationScore u ((c0, c2), (c1, c3))) := by
  simp only [formTeamsOptimally, formationsOf, List.foldl]
  by_cases h1 : formationScore u ((c0, c2), (c1, c3)) < formationScore u ((c0, c1), (c2, c3))
  · by_cases h2 : formationScore u ((c0, c3), (c1, c2)) < formationScore u ((c0, c2), (c1, c3))
    · right; right
      refine ⟨by simp [h1, h2], by omega, h2⟩
    · right; left
      refine ⟨by simp [h1, h2], h1, by omega⟩
  · by_cases h2 : formationScore u ((c0, c3), (c1, c2)) < formationScore u ((c0, c1), (c2, c3))
    · right; right
      refine ⟨by simp [h1, h2], h2, by omega⟩
    · left
      refine ⟨by simp [h1, h2], by omega, by omega⟩

/-- Indexing a list at positions that are all in range succeeds and
preserves the index count. -/
theorem mapIndex_isSome (comps : List Comp) :
    ∀ g : List Nat, (∀ i ∈ g, i < comps.length) →
      ∃ rc, mapIndex comps g = some rc ∧ rc.length = g.length := by
  intro g
  induction g with
  | nil => intro _; exact ⟨[], rfl, rfl⟩
  | cons i t ih =>
    intro h
    obtain ⟨rc, hrc, hlen⟩ := ih (fun j hj => h j (List.mem_cons_of_mem i hj))
    have hi : i < comps.length := h i (List.mem_cons_self i t)
    refine ⟨comps[i] :: rc, ?_, by simp [hlen]⟩
    simp [mapIndex, List.getElem?_eq_getElem hi, hrc]

/-- The chain-race builder succeeds whenever the chain index budget and
the 12-seat boat list fit (helper for claim C10). -/
theorem generateChainRacesGo_isSome (bs : BoatSet) :
    ∀ (nums : List Nat) (idx : Nat) (comps : List Comp) (u : Used),
      nums.length + idx ≤ 6 → comps.length = 12 →
      (generateChainRacesGo bs nums idx comps u).isSome = true := by
  intro nums
  induction nums with
  | nil => intro idx comps u _ _; simp [generateChainRacesGo]
  | cons n rest ih =>
    intro idx comps u hbudget hcomps
    have hidx : idx < 6 := by simp [List.length_cons] at hbudget; omega
    have hg : ∃ g, chainGroups12[idx]? = some g ∧ g.length = 4 ∧ ∀ i ∈ g, i < 12 := by
      interval_cases idx <;> exact ⟨_, rfl, rfl, by decide⟩
    obtain ⟨g, hgval, hg4, hgmem⟩ := hg
    obtain ⟨rc, hrc, hrclen⟩ :=
      mapIndex_isSome comps g (fun i hi => by rw [hcomps]; exact hgmem i hi)
    obtain ⟨tms, htms⟩ :=
      Option.isSome_iff_exists.mp (formTeams_length_four_isSome rc u (hrclen.trans hg4))
    obtain ⟨res, hres⟩ := Option.isSome_iff_exists.mp
      (ih (idx + 1) comps (updateUsed u tms.1 tms.2)
        (by simp [List.length_cons] at hbudget ⊢; omega) hcomps)
    simp [generateChainRacesGo, hgval, hrc, htms, hres]

/-- Claim C10.  _form_teams_optimally returns a pair of teams for every
four-competitor group and every used_teammates map (its None branch is
unreachable), and therefore _generate_chain_races_careful, fed the six
race numbers and the 12-seat boat list of a round, never reports
failure. -/
theorem chainBuilder_never_fails :
    (∀ (rc : List Comp) (u : Used), rc.length = 4 →
        (formTeamsOptimally rc u).isSome = true)
    ∧ (∀ (bs : BoatSet) (nums : List Nat) (comps : List Comp) (u : Used),
        nums.length = 6 → comps.length = 12 →
        (generateChainRacesCareful bs nums comps u).isSome = true) := by
  refine ⟨formTeams_length_four_isSome, ?_⟩
  intro bs nums comps u hn hc
  exact generateChainRacesGo_isSome bs nums 0 comps u (by omega) hc

/-- Witness for claim C10 at a concrete round input. -/
theorem chainBuilder_never_fails_witness :
    (formTeamsOptimally [0, 1, 2, 3] (fun _ _ => false)).isSome = true
    ∧ (generateChainRacesCareful BoatSet.A [1, 3, 5, 7, 9, 11]
        (List.range 12) (fun _ _ => false)).isSome = true :=
  ⟨chainBuilder_never_fails.1 [0, 1, 2, 3] (fun _ _ => false) rfl,
   chainBuilder_never_fails.2 BoatSet.A [1, 3, 5, 7, 9, 11]
     (List.range 12) (fun _ _ => false) rfl (by simp)⟩

/-! ### Theorems: validator thresholds (claims C3, C4, C9) -/

/-- A lower bound on the running minimum of the gate fold. -/
theorem le_gate_fold_min (s : Schedule) (k : Nat) :
    ∀ (l : List Comp) (a : Nat),
      k ≤ l.foldl (fun m c => min m (uniqueOpponents s c)) a ↔
        (k ≤ a ∧ ∀ c ∈ l, k ≤ uniqueOpponents s c) := by
  intro l
  induction l with
  | nil => simp
  | cons x xs ih =>
    intro a
    simp only [List.foldl_cons, ih, le_min_iff, List.mem_cons]
    constructor
    · rintro ⟨⟨h1, h2⟩, h3⟩
      exact ⟨h1, fun c hc => by rcases hc with rfl | hc; exact h2; exact h3 c hc⟩
    · rintro ⟨h1, h2⟩
      exact ⟨⟨h1, h2 x (.inl rfl)⟩, fun c hc => h2 c (.inr hc)⟩

/-- Counterexample to claim C3 as stated: with the checked-in
configuration (competitors_per_round = 20, so a floor(C/2) threshold of
10), the validator passes the raceless 21-competitor schedule even
though no competitor faces 10 unique opponents, because a competitor
with an empty opponents list is exempted. -/
theorem opponentDiversity_halfC_cex :
    ¬ (checkOpponentDiversity cexEmpty = true ↔
        ∀ c ∈ cexEmpty.competitors,
          defaultConfig.competitorsPerRound / 2 ≤ uniqueOpponents cexEmpty c) := by
  decide

/-- Claim C3, amended.  The validator passes iff every competitor with a
nonempty opponents list faces at least 12 unique opponents, and the
driver gate clears its opponent stage iff every roster competitor
(zero-race ones included) faces at least 12 unique opponents; the
threshold is the hard-coded 12, which equals floor(C/2) only for the
24-per-round presets. -/
theorem opponentDiversity_threshold_twelve :
    (∀ s : Schedule, checkOpponentDiversity s = true ↔
        ∀ c ∈ s.competitors,
          (s.opponentsFor c).length = 0 ∨ 12 ≤ uniqueOpponents s c)
    ∧ (∀ (roster : List Comp) (s : Schedule),
        ¬ gateMinOpponents roster s < 12 ↔
          ∀ c ∈ roster, 12 ≤ uniqueOpponents s c) := by
  constructor
  · intro s
    simp only [checkOpponentDiversity, Bool.not_eq_true', List.any_eq_false,
      Bool.and_eq_true, decide_eq_true_eq, not_and]
    refine forall_congr' (fun c => forall_congr' (fun _ => ?_))
    omega
  · intro roster s
    rw [not_lt, gateMinOpponents, le_gate_fold_min]
    simp

/-- Counterexample to claim C4 as stated: under the 24-competitor preset
(numCompetitors = competitorsPerRound = 24) the validator accepts a
schedule with four duplicate teammate pairings; the code has no
zero-duplicate rule for N = C. -/
theorem uniqueTeammates_zero_dup_cex :
    ¬ (checkUniqueTeammates config24 dupSched = true ↔
        ((∀ c ∈ dupSched.competitors,
            ∀ t ∈ (dupSched.getTeammatesForCompetitor c).dedup,
              (dupSched.getTeammatesForCompetitor c).count t ≤ 2)
          ∧ totalDuplicates dupSched ≤ config24.numCompetitors
          ∧ (config24.numCompetitors = config24.competitorsPerRound →
              totalDuplicates dupSched = 0))) := by
  decide

/-- Claim C4, amended.  check_unique_teammates passes iff no competitor
has the same teammate three or more times and the duplicate pairings
summed over the roster stay within NUM_COMPETITORS; there is no
additional zero-duplicate requirement when N = C. -/
theorem uniqueTeammates_pass_condition :
    ∀ (cfg : Config) (s : Schedule),
      checkUniqueTeammates cfg s = true ↔
        ((∀ c ∈ s.competitors,
            ∀ t ∈ (s.getTeammatesForCompetitor c).dedup,
              (s.getTeammatesForCompetitor c).count t ≤ 2)
          ∧ totalDuplicates s ≤ cfg.numCompetitors) := by
  intro cfg s
  simp only [checkUniqueTeammates, Bool.and_eq_true, Bool.not_eq_true',
    List.any_eq_false, decide_eq_true_eq]
  constructor
  · rintro ⟨h1, h2⟩
    refine ⟨fun c hc t ht => ?_, h2⟩
    have h3 := h1 c hc
    simp only [hasTripleTeammate, Bool.not_eq_true, List.any_eq_false,
      decide_eq_true_eq, not_lt] at h3
    exact h3 t ht
  · rintro ⟨h1, h2⟩
    refine ⟨fun c hc => ?_, h2⟩
    simp only [hasTripleTeammate, Bool.not_eq_true, List.any_eq_false,
      decide_eq_true_eq, not_lt]
    exact h1 c hc

/-- Counterexample to claim C9 as stated: with the checked-in constants
(N = 21, races_per_competitor = 18) a schedule with 88 single outings is
rejected by check_two_race_outings although 88 is within
N * races_per_competitor / 4 = 94; the source computes
N * (races_per_competitor // 4) = 84 instead. -/
theorem twoRaceOutings_product_cex :
    ¬ (checkTwoRaceOutings defaultConfig cexOutings = true ↔
        totalSingleOutings cexOutings ≤
          defaultConfig.numCompetitors * defaultConfig.racesPerCompetitor / 4) := by
  decide

/-- Claim C9, amended.  check_two_race_outings passes iff the single
outings found by the greedy step-2 grouping total at most
N * (races_per_competitor // 4), the integer division applied to
races_per_competitor before the product; the greedy grouping accounts
for every race number (singles + 2 * doubles = race count). -/
theorem twoRaceOutings_pass_condition :
    (∀ (cfg : Config) (s : Schedule),
      checkTwoRaceOutings cfg s = true ↔
        totalSingleOutings s ≤
          cfg.numCompetitors * (cfg.racesPerCompetitor / 4))
    ∧ (∀ l : List Nat, (countOutings l).1 + 2 * (countOutings l).2 = l.length) := by
  constructor
  · intro cfg s
    simp [checkTwoRaceOutings]
  · have go : ∀ (a : Nat) (l : List Nat),
        (countOutingsGo a l).1 + 2 * (countOutingsGo a l).2 = l.length + 1 := by
      intro a l
      induction a, l using countOutingsGo.induct with
      | case1 a => simp [countOutingsGo]
      | case2 a => simp [countOutingsGo]
      | case3 a c rest2 ih => simp [countOutingsGo.eq_3]; omega
      | case4 a c rest2 h ih =>
        cases rest2 with
        | nil => simp [countOutingsGo.eq_2, countOutingsGo.eq_1, h]
        | cons d rest3 =>
          simp only [countOutingsGo.eq_3, if_neg h, List.length_cons] at ih ⊢
          omega
    intro l
    cases l with
    | nil => simp [countOutings]
    | cons a rest => simpa [countOutings] using go a rest

/-! ### Theorems: the alignment optimiser preserves the schedule frame
(claim C6) -/

/-- Setting a position to the value it already holds is the identity. -/
theorem set_self_of_getElem? {α : Type} :
    ∀ (l : List α) (i : Nat) (a : α), l[i]? = some a → l.set i a = l := by
  intro l
  induction l with
  | nil => intro i a h; simp at h
  | cons x xs ih =>
    intro i a h
    cases i with
    | zero => simp at h; simp [List.set, h]
    | succ j => simp at h; simp [List.set, ih j a h]

/-- Swapping inside team_a keeps the race key. -/
theorem raceKey_swapA (r : Race) : raceKey (swapWithinTeamA r) = raceKey r := by
  simp [raceKey, swapWithinTeamA, Finset.pair_comm]

/-- Swapping inside team_b keeps the race key. -/
theorem raceKey_swapB (r : Race) : raceKey (swapWithinTeamB r) = raceKey r := by
  simp [raceKey, swapWithinTeamB, Finset.pair_comm]

/-- Every race variant keeps the race key. -/
theorem raceKey_variants {r v : Race} (h : v ∈ raceVariants r) :
    raceKey v = raceKey r := by
  simp only [raceVariants, List.mem_cons, List.mem_singleton] at h
  rcases h with rfl | rfl | rfl | rfl | h
  · rfl
  · exact raceKey_swapA r
  · exact raceKey_swapB r
  · rw [raceKey_swapB, raceKey_swapA]
  · simp at h

/-- The inner combination fold either keeps the accumulator or installs
the fixed race1 variant and a member of the race2 variant list. -/
theorem bestComboInner_shape (c1 c2 : Comp) (v1 : Race) :
    ∀ (vs : List Race) (acc : Race × Race × Nat),
      bestComboInner c1 c2 v1 acc vs = acc
      ∨ ((bestComboInner c1 c2 v1 acc vs).1 = v1
          ∧ (bestComboInner c1 c2 v1 acc vs).2.1 ∈ vs) := by
  intro vs
  induction vs with
  | nil => intro acc; left; rfl
  | cons v rest ih =>
    intro acc
    simp only [bestComboInner, List.foldl_cons]
    by_cases h : acc.2.2 < alignedCount v1 v c1 c2
    · simp only [if_pos h]
      rcases ih (v1, v, alignedCount v1 v c1 c2) with h2 | ⟨h2, h3⟩
      · right
        rw [bestComboInner] at h2
        rw [h2]
        exact ⟨rfl, List.mem_cons_self v rest⟩
      · right
        rw [bestComboInner] at h2 h3
        exact ⟨h2, List.mem_cons_of_mem v h3⟩
    · simp only [if_neg h]
      rcases ih acc with h2 | ⟨h2, h3⟩
      · left; rw [bestComboInner] at h2; exact h2
      · right
        rw [bestComboInner] at h2 h3
        exact ⟨h2, List.mem_cons_of_mem v h3⟩

/-- The 16-combination search returns variants of its two inputs. -/
theorem bestCombo_mem (r1 r2 : Race) (c1 c2 : Comp) :
    (bestCombo r1 r2 c1 c2).1 ∈ raceVariants r1
    ∧ (bestCombo r1 r2 c1 c2).2.1 ∈ raceVariants r2 := by
  rw [bestCombo]
  have main : ∀ (vs1 : List Race) (acc : Race × Race × Nat),
      (∀ v ∈ vs1, v ∈ raceVariants r1) →
      acc.1 ∈ raceVariants r1 → acc.2.1 ∈ raceVariants r2 →
      (vs1.foldl (fun acc v1 => bestComboInner c1 c2 v1 acc (raceVariants r2)) acc).1
          ∈ raceVariants r1
      ∧ (vs1.foldl (fun acc v1 => bestComboInner c1 c2 v1 acc (raceVariants r2)) acc).2.1
          ∈ raceVariants r2 := by
    intro vs1
    induction vs1 with
    | nil => intro acc _ h1 h2; exact ⟨h1, h2⟩
    | cons v rest ih =>
      intro acc hmem h1 h2
      simp only [List.foldl_cons]
      rcases bestComboInner_shape c1 c2 v (raceVariants r2) acc with h3 | ⟨h3, h4⟩
      · refine ih _ (fun w hw => hmem w (List.mem_cons_of_mem v hw)) ?_ ?_
        · rw [h3]; exact h1
        · rw [h3]; exact h2
      · refine ih _ (fun w hw => hmem w (List.mem_cons_of_mem v hw)) ?_ ?_
        · rw [h3]; exact hmem v (List.mem_cons_self v rest)
        · exact h4
  exact main (raceVariants r1) (r1, r2, alignedCount r1 r2 c1 c2)
    (fun v hv => hv) (List.mem_cons_self r1 _) (List.mem_cons_self r2 _)

/-- Processing an adjacent pair replaces each race by a variant of
itself, so both race keys survive. -/
theorem processPair_keys (r1 r2 : Race) :
    raceKey (processPair r1 r2).1 = raceKey r1
    ∧ raceKey (processPair r1 r2).2.1 = raceKey r2 := by
  rw [processPair]
  rcases h : sharedPair r1 r2 with _ | ⟨c1, c2⟩
  · exact ⟨rfl, rfl⟩
  · simp only
    by_cases h2 : alignedCount r1 r2 c1 c2 = 2
    · simp [h2]
    · simp only [if_neg h2]
      by_cases h3 : alignedCount r1 r2 c1 c2 < (bestCombo r1 r2 c1 c2).2.2
      · simp only [if_pos h3]
        exact ⟨raceKey_variants (bestCombo_mem r1 r2 c1 c2).1,
               raceKey_variants (bestCombo_mem r1 r2 c1 c2).2⟩
      · simp [h3]

/-- One pass step keeps the per-position race keys. -/
theorem passStep_keys (L : List Race) (i : Nat) :
    (passStep L i).1.map raceKey = L.map raceKey := by
  rw [passStep]
  rcases h1 : L[i]? with _ | r1
  · rfl
  · rcases h2 : L[i + 1]? with _ | r2
    · rfl
    · simp only
      by_cases h3 : (processPair r1 r2).2.2 = true
      · simp only [if_pos h3, List.map_set]
        rw [(processPair_keys r1 r2).1, (processPair_keys r1 r2).2]
        rw [set_self_of_getElem? (L.map raceKey) i (raceKey r1) (by simp [h1])]
        rw [set_self_of_getElem? (L.map raceKey) (i + 1) (raceKey r2) (by simp [h2])]
      · simp [h3]

/-- A whole pass keeps the per-position race keys. -/
theorem passOnce_keys (L : List Race) :
    (passOnce L).1.map raceKey = L.map raceKey := by
  rw [passOnce]
  have main : ∀ (idxs : List Nat) (st : List Race × Bool),
      ((idxs.foldl (fun acc i =>
          let p := passStep acc.1 i
          (p.1, acc.2 || p.2)) st).1).map raceKey = st.1.map raceKey := by
    intro idxs
    induction idxs with
    | nil => intro st; rfl
    | cons i rest ih =>
      intro st
      simp only [List.foldl_cons]
      rw [ih]
      exact passStep_keys st.1 i
  exact main _ (L, false)

/-- The pass loop keeps the per-position race keys of both groups. -/
theorem passes_keys :
    ∀ (n : Nat) (a b : List Race),
      ((passes n a b).1).map raceKey = a.map raceKey
      ∧ ((passes n a b).2).map raceKey = b.map raceKey := by
  intro n
  induction n with
  | zero => intro a b; exact ⟨rfl, rfl⟩
  | succ m ih =>
    intro a b
    rw [passes]
    by_cases h : ((passOnce a).2 || (passOnce b).2) = true
    · simp only [if_pos h]
      obtain ⟨ha, hb⟩ := ih (passOnce a).1 (passOnce b).1
      rw [ha, hb, passOnce_keys, passOnce_keys]
      exact ⟨rfl, rfl⟩
    · simp only [if_neg h]
      rw [passOnce_keys, passOnce_keys]
      exact ⟨rfl, rfl⟩

/-- Stable insertion is a permutation step. -/
theorem insertRace_perm (r : Race) : ∀ l : List Race, List.Perm (insertRace r l) (r :: l) := by
  intro l
  induction l with
  | nil => rfl
  | cons s rest ih =>
    rw [insertRace]
    by_cases h : s.race_number < r.race_number
    · simp only [if_pos h]
      exact (ih.cons s).trans (List.Perm.swap r s rest)
    · simp [if_neg h]

/-- Sorting by race number is a permutation. -/
theorem sortByNum_perm : ∀ l : List Race, List.Perm (sortByNum l) l := by
  intro l
  induction l with
  | nil => rfl
  | cons x xs ih =>
    rw [sortByNum, List.foldr_cons]
    exact (insertRace_perm x _).trans (ih.cons x)

/-- In a two-valued boat set, filtering for B is filtering against A. -/
theorem boatB_filter_eq (r : Race) :
    (r.boat_set == BoatSet.B) = !(r.boat_set == BoatSet.A) := by
  cases h : r.boat_set <;> rfl

/-- The alignment optimiser permutes the per-race keys: its sorting,
filtering and intra-team swapping steps each preserve the key of every
race. -/
theorem optimize_keys_perm (races : List Race) :
    List.Perm ((optimizeDoubleOutings races).map raceKey) (races.map raceKey) := by
  have fA := races.filter (fun r => r.boat_set == BoatSet.A)
  have fB := races.filter (fun r => r.boat_set == BoatSet.B)
  have hA := (passes_keys 5
    (sortByNum (races.filter (fun r => r.boat_set == BoatSet.A)))
    (sortByNum (races.filter (fun r => r.boat_set == BoatSet.B)))).1
  have hB := (passes_keys 5
    (sortByNum (races.filter (fun r => r.boat_set == BoatSet.A)))
    (sortByNum (races.filter (fun r => r.boat_set == BoatSet.B)))).2
  have h1 : List.Perm ((optimizeDoubleOutings races).map raceKey)
      (((passes 5
          (sortByNum (races.filter (fun r => r.boat_set == BoatSet.A)))
          (sortByNum (races.filter (fun r => r.boat_set == BoatSet.B)))).1
        ++ (passes 5
          (sortByNum (races.filter (fun r => r.boat_set == BoatSet.A)))
          (sortByNum (races.filter (fun r => r.boat_set == BoatSet.B)))).2).map raceKey) :=
    (sortByNum_perm _).map raceKey
  rw [List.map_append, hA, hB] at h1
  have h3 : List.Perm
      ((sortByNum (races.filter (fun r => r.boat_set == BoatSet.A))).map raceKey
        ++ (sortByNum (races.filter (fun r => r.boat_set == BoatSet.B))).map raceKey)
      ((races.filter (fun r => r.boat_set == BoatSet.A)).map raceKey
        ++ (races.filter (fun r => r.boat_set == BoatSet.B)).map raceKey) :=
    ((sortByNum_perm _).map raceKey).append ((sortByNum_perm _).map raceKey)
  have h4 : List.Perm
      ((races.filter (fun r => r.boat_set == BoatSet.A)).map raceKey
        ++ (races.filter (fun r => r.boat_set == BoatSet.B)).map raceKey)
      (races.map raceKey) := by
    rw [← List.map_append]
    refine List.Perm.map raceKey ?_
    have hfilter : races.filter (fun r => r.boat_set == BoatSet.B)
        = races.filter (fun r => !(r.boat_set == BoatSet.A)) := by
      apply List.filter_congr
      intro r _
      exact boatB_filter_eq r
    rw [hfilter]
    exact List.filter_append_perm _ races
  exact (h1.trans h3).trans h4

/-- Claim C6.  The alignment optimiser preserves, as a multiset, the
(race number, boat set, unordered team_a membership, unordered team_b
membership) key of every race: it can only reorder competitors inside a
team and reorder the race list. -/
theorem optimize_preserves_raceKeys (races : List Race) :
    List.Perm ((optimizeDoubleOutings races).map raceKey) (races.map raceKey) :=
  optimize_keys_perm races

/-! ### Theorems: pattern abstraction of the 16-combination search
(infrastructure for claim C7) -/

/-- _get_boat_position factors through the slot pattern. -/
theorem getBoatPosition_eq_pat (r : Race) (c : Comp) :
    getBoatPosition r c = posFromPat (patOf r c) := by
  simp only [getBoatPosition, posFromPat, patOf]
  by_cases h1 : r.team_a.competitor1 = c <;> by_cases h2 : r.team_a.competitor2 = c <;>
    by_cases h3 : r.team_b.competitor1 = c <;> by_cases h4 : r.team_b.competitor2 = c <;>
    simp [h1, h2, h3, h4]

/-- Swapping team_a swaps the first two pattern slots. -/
theorem patOf_swapA (r : Race) (c : Comp) :
    patOf (swapWithinTeamA r) c = swapFstPat (patOf r c) := rfl

/-- Swapping team_b swaps the last two pattern slots. -/
theorem patOf_swapB (r : Race) (c : Comp) :
    patOf (swapWithinTeamB r) c = swapSndPat (patOf r c) := rfl

/-- The aligned count factors through the four slot patterns. -/
theorem alignedCount_eq_pat (r1 r2 : Race) (c1 c2 : Comp) :
    alignedCount r1 r2 c1 c2
      = alignedP (patOf r1 c1) (patOf r2 c1) (patOf r1 c2) (patOf r2 c2) := by
  simp [alignedCount, alignedP, getBoatPosition_eq_pat]

/-- Every race variant acts on slot patterns by one of the four
transforms. -/
theorem variants_transform (r : Race) :
    ∀ v ∈ raceVariants r, ∃ f ∈ variantTransforms, ∀ c, patOf v c = f (patOf r c) := by
  intro v hv
  simp only [raceVariants, List.mem_cons, List.not_mem_nil, or_false] at hv
  rcases hv with rfl | rfl | rfl | rfl
  · exact ⟨id, by simp [variantTransforms], fun c => rfl⟩
  · exact ⟨swapFstPat, by simp [variantTransforms], fun c => rfl⟩
  · exact ⟨swapSndPat, by simp [variantTransforms], fun c => rfl⟩
  · exact ⟨fun p => swapSndPat (swapFstPat p), by simp [variantTransforms], fun c => rfl⟩

/-- Conversely, each transform is realised by a race variant. -/
theorem transform_variants (r : Race) :
    ∀ f ∈ variantTransforms, ∃ v ∈ raceVariants r, ∀ c, patOf v c = f (patOf r c) := by
  intro f hf
  simp only [variantTransforms, List.mem_cons, List.not_mem_nil, or_false] at hf
  rcases hf with rfl | rfl | rfl | rfl
  · exact ⟨r, by simp [raceVariants], fun c => rfl⟩
  · exact ⟨swapWithinTeamA r, by simp [raceVariants], fun c => rfl⟩
  · exact ⟨swapWithinTeamB r, by simp [raceVariants], fun c => rfl⟩
  · exact ⟨swapWithinTeamB (swapWithinTeamA r), by simp [raceVariants], fun c => rfl⟩

/-- The team swaps are involutions and commute. -/
theorem swapA_invol (r : Race) : swapWithinTeamA (swapWithinTeamA r) = r := rfl

theorem swapB_invol (r : Race) : swapWithinTeamB (swapWithinTeamB r) = r := rfl

theorem swapAB_comm (r : Race) :
    swapWithinTeamA (swapWithinTeamB r) = swapWithinTeamB (swapWithinTeamA r) := rfl

/-- A variant of a variant is a variant. -/
theorem variants_closure {r b : Race} (hb : b ∈ raceVariants r) :
    ∀ v ∈ raceVariants b, v ∈ raceVariants r := by
  intro v hv
  simp only [raceVariants, List.mem_cons, List.not_mem_nil, or_false] at hb hv ⊢
  rcases hb with rfl | rfl | rfl | rfl <;>
    rcases hv with rfl | rfl | rfl | rfl <;>
    simp [swapA_invol, swapB_invol, swapAB_comm]

/-- Being a variant is symmetric. -/
theorem variants_symm {r b : Race} (hb : b ∈ raceVariants r) :
    r ∈ raceVariants b := by
  simp only [raceVariants, List.mem_cons, List.not_mem_nil, or_false] at hb ⊢
  rcases hb with rfl | rfl | rfl | rfl <;>
    simp [swapA_invol, swapB_invol, swapAB_comm]

/-- Variants do not change race membership. -/
theorem hasCompetitor_variants {r v : Race} (hv : v ∈ raceVariants r) (c : Comp) :
    v.hasCompetitor c = r.hasCompetitor c := by
  simp only [raceVariants, List.mem_cons, List.not_mem_nil, or_false] at hv
  rcases hv with rfl | rfl | rfl | rfl <;>
    simp [Race.hasCompetitor, Team.hasMem, swapWithinTeamA, swapWithinTeamB,
      Bool.or_comm, Bool.or_left_comm, Bool.or_assoc]

/-- Variants keep the four-distinct-competitors invariant. -/
theorem distinctFour_variants {r v : Race} (hv : v ∈ raceVariants r)
    (hd : r.distinctFour) : v.distinctFour := by
  have permA : List.Perm (Race.slotList r) (Race.slotList (swapWithinTeamA r)) :=
    List.Perm.swap _ _ _
  have permB : List.Perm (Race.slotList r) (Race.slotList (swapWithinTeamB r)) :=
    (List.Perm.swap _ _ _).cons _ |>.cons _
  have permAB : List.Perm (Race.slotList r)
      (Race.slotList (swapWithinTeamB (swapWithinTeamA r))) :=
    ((List.Perm.swap _ _ _).cons _ |>.cons _).trans
      (List.Perm.swap _ _ _)
  simp only [raceVariants, List.mem_cons, List.not_mem_nil, or_false] at hv
  rcases hv with rfl | rfl | rfl | rfl
  · exact hd
  · exact permA.nodup hd
  · exact permB.nodup hd
  · exact permAB.nodup hd

/-- Pattern transforms keep the slot count. -/
theorem patTrues_transform : ∀ (p : Pat), ∀ f ∈ variantTransforms,
    patTrues (f p) = patTrues p := by
  decide

/-- A competitor of a race with four distinct competitors occupies
exactly one slot. -/
theorem patTrues_one_of_mem {r : Race} (hd : r.distinctFour) {c : Comp}
    (hc : r.hasCompetitor c = true) : patTrues (patOf r c) = 1 := by
  have hd2 := hd
  rw [Race.distinctFour, Race.slotList] at hd2
  simp only [List.nodup_cons, List.mem_cons, List.not_mem_nil, or_false,
    not_or, List.nodup_nil, and_true] at hd2
  obtain ⟨⟨n12, n13, n14⟩, ⟨n23, n24⟩, n34, -⟩ := hd2
  simp only [Race.hasCompetitor, Team.hasMem, Bool.or_eq_true, beq_iff_eq] at hc
  rcases hc with (rfl | rfl) | (rfl | rfl)
  · simp [patTrues, patOf, Ne.symm n12, Ne.symm n13, Ne.symm n14]
  · simp [patTrues, patOf, n12, Ne.symm n23, Ne.symm n24]
  · simp [patTrues, patOf, n13, n23, Ne.symm n34]
  · simp [patTrues, patOf, n14, n24, n34]

set_option maxHeartbeats 1600000 in
/-- Core combinatorial fact: for races whose shared competitors occupy
exactly one slot each, no combination that modifies race1 beats the best
race2-only combination. -/
theorem alignedP_le_maxFst :
    ∀ p1 q1 p2 q2 : Pat, patTrues p1 = 1 → patTrues q1 = 1 →
      patTrues p2 = 1 → patTrues q2 = 1 →
      ∀ f ∈ variantTransforms, ∀ g ∈ variantTransforms,
        alignedP (f p1) (g p2) (f q1) (g q2) ≤ maxAlignedFst p1 q1 p2 q2 := by
  decide

/-- Upper bounds of a running maximum. -/
theorem foldl_max_le_iff {α : Type} (f : α → Nat) :
    ∀ (l : List α) (a m : Nat),
      l.foldl (fun m x => max m (f x)) a ≤ m ↔ (a ≤ m ∧ ∀ x ∈ l, f x ≤ m) := by
  intro l
  induction l with
  | nil => simp
  | cons x xs ih =>
    intro a m
    rw [List.foldl_cons, ih, Nat.max_le]
    constructor
    · rintro ⟨⟨h1, h2⟩, h3⟩
      refine ⟨h1, fun y hy => ?_⟩
      rcases List.mem_cons.mp hy with rfl | hy
      · exact h2
      · exact h3 y hy
    · rintro ⟨h1, h2⟩
      exact ⟨⟨h1, h2 x (List.mem_cons_self x xs)⟩,
        fun y hy => h2 y (List.mem_cons_of_mem x hy)⟩

/-- Every listed value bounds below the running maximum. -/
theorem le_foldl_max {α : Type} (f : α → Nat) (l : List α) (a : Nat) :
    a ≤ l.foldl (fun m x => max m (f x)) a
    ∧ ∀ x ∈ l, f x ≤ l.foldl (fun m x => max m (f x)) a :=
  (foldl_max_le_iff f l a _).mp le_rfl

/-- The value tracked by the inner combination fold is the running
maximum of the candidate scores. -/
theorem bestComboInner_score (c1 c2 : Comp) (v1 : Race) :
    ∀ (vs : List Race) (acc : Race × Race × Nat),
      (bestComboInner c1 c2 v1 acc vs).2.2
        = vs.foldl (fun m v2 => max m (alignedCount v1 v2 c1 c2)) acc.2.2 := by
  intro vs
  induction vs with
  | nil => intro acc; rfl
  | cons v rest ih =>
    intro acc
    simp only [bestComboInner, List.foldl_cons] at ih ⊢
    by_cases h : acc.2.2 < alignedCount v1 v c1 c2
    · rw [if_pos h, ih, Nat.max_eq_right (Nat.le_of_lt h)]
    · rw [if_neg h, ih, Nat.max_eq_left (Nat.not_lt.mp h)]

/-- The inner fold keeps the invariant that its value is the aligned
count of its chosen pair. -/
theorem bestComboInner_chosen (c1 c2 : Comp) (v1 : Race) :
    ∀ (vs : List Race) (acc : Race × Race × Nat),
      acc.2.2 = alignedCount acc.1 acc.2.1 c1 c2 →
      (bestComboInner c1 c2 v1 acc vs).2.2
        = alignedCount (bestComboInner c1 c2 v1 acc vs).1
            (bestComboInner c1 c2 v1 acc vs).2.1 c1 c2 := by
  intro vs
  induction vs with
  | nil => intro acc hacc; exact hacc
  | cons v rest ih =>
    intro acc hacc
    simp only [bestComboInner, List.foldl_cons] at ih ⊢
    by_cases h : acc.2.2 < alignedCount v1 v c1 c2
    · rw [if_pos h]; exact ih _ rfl
    · rw [if_neg h]; exact ih _ hacc

/-- Without a strictly better candidate the inner fold is the
identity. -/
theorem bestComboInner_no_improve (c1 c2 : Comp) (v1 : Race) :
    ∀ (vs : List Race) (acc : Race × Race × Nat),
      (∀ v ∈ vs, alignedCount v1 v c1 c2 ≤ acc.2.2) →
      bestComboInner c1 c2 v1 acc vs = acc := by
  intro vs
  induction vs with
  | nil => intro acc _; rfl
  | cons v rest ih =>
    intro acc h
    simp only [bestComboInner, List.foldl_cons] at ih ⊢
    rw [if_neg (Nat.not_lt.mpr (h v (List.mem_cons_self v rest)))]
    exact ih acc (fun w hw => h w (List.mem_cons_of_mem v hw))

/-- Specification of the 16-combination search for races with
one-slot shared competitors: race1 is never modified, the chosen race2
variant attains the tracked value, and that value dominates every
race2-only candidate. -/
theorem bestCombo_spec (r1 r2 : Race) (c1 c2 : Comp)
    (hp1 : patTrues (patOf r1 c1) = 1) (hq1 : patTrues (patOf r1 c2) = 1)
    (hp2 : patTrues (patOf r2 c1) = 1) (hq2 : patTrues (patOf r2 c2) = 1) :
    (bestCombo r1 r2 c1 c2).1 = r1
    ∧ (bestCombo r1 r2 c1 c2).2.1 ∈ raceVariants r2
    ∧ (bestCombo r1 r2 c1 c2).2.2
        = alignedCount r1 (bestCombo r1 r2 c1 c2).2.1 c1 c2
    ∧ ∀ v2 ∈ raceVariants r2,
        alignedCount r1 v2 c1 c2 ≤ (bestCombo r1 r2 c1 c2).2.2 := by
  have hacc1fst : (bestComboInner c1 c2 r1
      (r1, r2, alignedCount r1 r2 c1 c2) (raceVariants r2)).1 = r1 := by
    rcases bestComboInner_shape c1 c2 r1 (raceVariants r2)
        (r1, r2, alignedCount r1 r2 c1 c2) with h | ⟨h, _⟩
    · rw [h]
    · exact h
  have hacc1mem : (bestComboInner c1 c2 r1
      (r1, r2, alignedCount r1 r2 c1 c2) (raceVariants r2)).2.1 ∈ raceVariants r2 := by
    rcases bestComboInner_shape c1 c2 r1 (raceVariants r2)
        (r1, r2, alignedCount r1 r2 c1 c2) with h | ⟨_, h⟩
    · rw [h]; exact List.mem_cons_self r2 _
    · exact h
  have hacc1chosen := bestComboInner_chosen c1 c2 r1 (raceVariants r2)
    (r1, r2, alignedCount r1 r2 c1 c2) rfl
  have hacc1score := bestComboInner_score c1 c2 r1 (raceVariants r2)
    (r1, r2, alignedCount r1 r2 c1 c2)
  have hacc1max : ∀ v2 ∈ raceVariants r2,
      alignedCount r1 v2 c1 c2
        ≤ (bestComboInner c1 c2 r1
            (r1, r2, alignedCount r1 r2 c1 c2) (raceVariants r2)).2.2 := by
    intro v2 hv2
    rw [hacc1score]
    exact (le_foldl_max (fun v2 => alignedCount r1 v2 c1 c2)
      (raceVariants r2) (alignedCount r1 r2 c1 c2)).2 v2 hv2
  have hbound : ∀ v1' ∈ raceVariants r1, ∀ v2 ∈ raceVariants r2,
      alignedCount v1' v2 c1 c2
        ≤ (bestComboInner c1 c2 r1
            (r1, r2, alignedCount r1 r2 c1 c2) (raceVariants r2)).2.2 := by
    intro v1' hv1 v2 hv2
    obtain ⟨f, hf, hfpat⟩ := variants_transform r1 v1' hv1
    obtain ⟨g, hg, hgpat⟩ := variants_transform r2 v2 hv2
    have hkey := alignedP_le_maxFst (patOf r1 c1) (patOf r1 c2)
      (patOf r2 c1) (patOf r2 c2) hp1 hq1 hp2 hq2 f hf g hg
    rw [alignedCount_eq_pat, hfpat c1, hfpat c2, hgpat c1, hgpat c2]
    refine hkey.trans ?_
    have : maxAlignedFst (patOf r1 c1) (patOf r1 c2) (patOf r2 c1) (patOf r2 c2)
        ≤ (bestComboInner c1 c2 r1
            (r1, r2, alignedCount r1 r2 c1 c2) (raceVariants r2)).2.2 := by
      rw [maxAlignedFst]
      have hfold : ∀ (l : List Nat) (a m : Nat), a ≤ m → (∀ x ∈ l, x ≤ m) →
          l.foldl max a ≤ m := by
        intro l
        induction l with
        | nil => intro a m h _; exact h
        | cons x xs ih2 =>
          intro a m ha hx
          rw [List.foldl_cons]
          exact ih2 _ m (Nat.max_le.mpr ⟨ha, hx x (List.mem_cons_self x xs)⟩)
            (fun y hy => hx y (List.mem_cons_of_mem x hy))
      refine hfold _ _ _ (Nat.zero_le _) ?_
      intro x hx
      simp only [List.mem_map] at hx
      obtain ⟨g', hg', rfl⟩ := hx
      obtain ⟨v2', hv2', hv2pat⟩ := transform_variants r2 g' hg'
      have := hacc1max v2' hv2'
      rw [alignedCount_eq_pat, hv2pat c1, hv2pat c2] at this
      exact this
    exact this
  have e1 := bestComboInner_no_improve c1 c2 (swapWithinTeamA r1) (raceVariants r2)
    (bestComboInner c1 c2 r1 (r1, r2, alignedCount r1 r2 c1 c2) (raceVariants r2))
    (fun v hv => hbound (swapWithinTeamA r1) (by simp [raceVariants]) v hv)
  have e2 := bestComboInner_no_improve c1 c2 (swapWithinTeamB r1) (raceVariants r2)
    (bestComboInner c1 c2 r1 (r1, r2, alignedCount r1 r2 c1 c2) (raceVariants r2))
    (fun v hv => hbound (swapWithinTeamB r1) (by simp [raceVariants]) v hv)
  have e3 := bestComboInner_no_improve c1 c2 (swapWithinTeamB (swapWithinTeamA r1))
    (raceVariants r2)
    (bestComboInner c1 c2 r1 (r1, r2, alignedCount r1 r2 c1 c2) (raceVariants r2))
    (fun v hv => hbound (swapWithinTeamB (swapWithinTeamA r1)) (by simp [raceVariants]) v hv)
  have hexpand : bestCombo r1 r2 c1 c2
      = bestComboInner c1 c2 r1 (r1, r2, alignedCount r1 r2 c1 c2) (raceVariants r2) := by
    show bestComboInner c1 c2 (swapWithinTeamB (swapWithinTeamA r1))
        (bestComboInner c1 c2 (swapWithinTeamB r1)
          (bestComboInner c1 c2 (swapWithinTeamA r1)
            (bestComboInner c1 c2 r1 (r1, r2, alignedCount r1 r2 c1 c2)
              (raceVariants r2))
            (raceVariants r2))
          (raceVariants r2))
        (raceVariants r2)
      = bestComboInner c1 c2 r1 (r1, r2, alignedCount r1 r2 c1 c2) (raceVariants r2)
    rw [e1, e2, e3]
  rw [hexpand]
  refine ⟨hacc1fst, hacc1mem, ?_, hacc1max⟩
  rw [hacc1chosen, hacc1fst]

/-- Membership in Team.memberList is the hasMem test. -/
theorem mem_memberList {t : Team} {c : Comp} :
    c ∈ t.memberList ↔ t.hasMem c = true := by
  rw [Team.memberList]
  by_cases h : t.competitor1 = t.competitor2 <;>
    simp [h, Team.hasMem]

/-- Membership in Race.all_competitors is the hasCompetitor test. -/
theorem mem_allCompetitorsList {r : Race} {c : Comp} :
    c ∈ r.allCompetitorsList ↔ r.hasCompetitor c = true := by
  simp [Race.allCompetitorsList, Race.hasCompetitor, List.mem_dedup,
    mem_memberList]

/-- What a successful sharedPair extraction guarantees. -/
theorem sharedPair_spec {r1 r2 : Race} {c1 c2 : Comp}
    (h : sharedPair r1 r2 = some (c1, c2)) :
    c1 ≠ c2 ∧ r1.hasCompetitor c1 = true ∧ r1.hasCompetitor c2 = true
      ∧ r2.hasCompetitor c1 = true ∧ r2.hasCompetitor c2 = true := by
  rw [sharedPair] at h
  split at h
  case h_1 x y heq =>
    have h2 : x = c1 ∧ y = c2 := by
      injection h with h3
      exact ⟨congrArg Prod.fst h3, congrArg Prod.snd h3⟩
    rw [h2.1, h2.2] at heq
    have hnodup : (r1.allCompetitorsList.filter
        (fun c => r2.hasCompetitor c)).Nodup :=
      (List.nodup_dedup _).filter _
    rw [heq] at hnodup
    have hne : c1 ≠ c2 := by
      simp only [List.nodup_cons, List.mem_cons, List.not_mem_nil, or_false,
        List.nodup_nil, and_true, not_or] at hnodup
      exact hnodup.1
    have hc1 : c1 ∈ r1.allCompetitorsList.filter (fun c => r2.hasCompetitor c) := by
      rw [heq]; exact List.mem_cons_self _ _
    have hc2 : c2 ∈ r1.allCompetitorsList.filter (fun c => r2.hasCompetitor c) := by
      rw [heq]; exact List.mem_cons_of_mem _ (List.mem_cons_self _ _)
    rw [List.mem_filter] at hc1 hc2
    exact ⟨hne, mem_allCompetitorsList.mp hc1.1, mem_allCompetitorsList.mp hc2.1,
      hc1.2, hc2.2⟩
  case h_2 => exact absurd h (by simp)

/-- sharedPair only looks at membership, which variants preserve. -/
theorem sharedPair_congr {r1 r2 b : Race} (hb : b ∈ raceVariants r2) :
    sharedPair r1 b = sharedPair r1 r2 := by
  rw [sharedPair, sharedPair]
  rw [List.filter_congr (fun c _ => hasCompetitor_variants hb c)]

/-- The slot-count hypotheses of bestCombo_spec, packaged from the
distinctness invariant and a successful sharedPair. -/
theorem sharedPair_patTrues {r1 r2 : Race} {c1 c2 : Comp}
    (hd1 : r1.distinctFour) (hd2 : r2.distinctFour)
    (h : sharedPair r1 r2 = some (c1, c2)) :
    patTrues (patOf r1 c1) = 1 ∧ patTrues (patOf r1 c2) = 1
      ∧ patTrues (patOf r2 c1) = 1 ∧ patTrues (patOf r2 c2) = 1 := by
  obtain ⟨-, h1, h2, h3, h4⟩ := sharedPair_spec h
  exact ⟨patTrues_one_of_mem hd1 h1, patTrues_one_of_mem hd1 h2,
    patTrues_one_of_mem hd2 h3, patTrues_one_of_mem hd2 h4⟩

/-- Under the distinctness invariant the pair processor never modifies
race1. -/
theorem processPair_fst {r1 r2 : Race} (hd1 : r1.distinctFour)
    (hd2 : r2.distinctFour) : (processPair r1 r2).1 = r1 := by
  rw [processPair]
  rcases hsp : sharedPair r1 r2 with _ | ⟨c1, c2⟩
  · rfl
  · obtain ⟨hp1, hq1, hp2, hq2⟩ := sharedPair_patTrues hd1 hd2 hsp
    simp only
    by_cases h2 : alignedCount r1 r2 c1 c2 = 2
    · rw [if_pos h2]
    · rw [if_neg h2]
      by_cases h3 : alignedCount r1 r2 c1 c2 < (bestCombo r1 r2 c1 c2).2.2
      · rw [if_pos h3]
        exact (bestCombo_spec r1 r2 c1 c2 hp1 hq1 hp2 hq2).1
      · rw [if_neg h3]

/-- The chosen race2 replacement is a variant of race2. -/
theorem processPair_snd_mem {r1 r2 : Race} :
    (processPair r1 r2).2.1 ∈ raceVariants r2 := by
  rw [processPair]
  rcases hsp : sharedPair r1 r2 with _ | ⟨c1, c2⟩
  · exact List.mem_cons_self r2 _
  · simp only
    by_cases h2 : alignedCount r1 r2 c1 c2 = 2
    · rw [if_pos h2]; exact List.mem_cons_self r2 _
    · rw [if_neg h2]
      by_cases h3 : alignedCount r1 r2 c1 c2 < (bestCombo r1 r2 c1 c2).2.2
      · rw [if_pos h3]
        exact (bestCombo_mem r1 r2 c1 c2).2
      · rw [if_neg h3]; exact List.mem_cons_self r2 _

/-- Reprocessing a processed pair changes nothing: the written pair is a
fixed point of the pair processor. -/
theorem processPair_stable {r1 r2 : Race} (hd1 : r1.distinctFour)
    (hd2 : r2.distinctFour) :
    processPair r1 (processPair r1 r2).2.1
      = (r1, (processPair r1 r2).2.1, false) := by
  rcases hsp : sharedPair r1 r2 with _ | ⟨c1, c2⟩
  · have hpp : processPair r1 r2 = (r1, r2, false) := by rw [processPair, hsp]
    rw [hpp, processPair, hsp]
  · obtain ⟨hp1, hq1, hp2, hq2⟩ := sharedPair_patTrues hd1 hd2 hsp
    by_cases h2 : alignedCount r1 r2 c1 c2 = 2
    · have hpp : processPair r1 r2 = (r1, r2, false) := by
        rw [processPair, hsp]; simp only [if_pos h2]
      rw [hpp, processPair, hsp]
      simp only [if_pos h2]
    · by_cases h3 : alignedCount r1 r2 c1 c2 < (bestCombo r1 r2 c1 c2).2.2
      · -- the improving branch: race2 is replaced by b
        obtain ⟨hfst, hmem, hval, hmax⟩ := bestCombo_spec r1 r2 c1 c2 hp1 hq1 hp2 hq2
        have hpp : processPair r1 r2
            = (r1, (bestCombo r1 r2 c1 c2).2.1, true) := by
          rw [processPair, hsp]
          simp only [if_neg h2, if_pos h3]
          rw [hfst]
        rw [hpp]
        simp only
        have hshared : sharedPair r1 (bestCombo r1 r2 c1 c2).2.1
            = some (c1, c2) := by rw [sharedPair_congr hmem, hsp]
        rw [processPair, hshared]
        simp only
        set b := (bestCombo r1 r2 c1 c2).2.1 with hb
        by_cases h4 : alignedCount r1 b c1 c2 = 2
        · rw [if_pos h4]
        · rw [if_neg h4]
          -- the re-run search cannot beat the value it just attained
          have hbpat : patTrues (patOf b c1) = 1 ∧ patTrues (patOf b c2) = 1 := by
            obtain ⟨f, hf, hfpat⟩ := variants_transform r2 b hmem
            rw [hfpat c1, hfpat c2, patTrues_transform _ f hf,
              patTrues_transform _ f hf]
            exact ⟨hp2, hq2⟩
          obtain ⟨hfst2, hmem2, hval2, hmax2⟩ :=
            bestCombo_spec r1 b c1 c2 hp1 hq1 hbpat.1 hbpat.2
          have hle : (bestCombo r1 b c1 c2).2.2 ≤ alignedCount r1 b c1 c2 := by
            rw [hval2]
            have : (bestCombo r1 b c1 c2).2.1 ∈ raceVariants r2 :=
              variants_closure hmem _ hmem2
            calc alignedCount r1 (bestCombo r1 b c1 c2).2.1 c1 c2
                ≤ (bestCombo r1 r2 c1 c2).2.2 := hmax _ this
              _ = alignedCount r1 b c1 c2 := hval
          rw [if_neg (Nat.not_lt.mpr hle)]
      · have hpp : processPair r1 r2 = (r1, r2, false) := by
          rw [processPair, hsp]; simp only [if_neg h2, if_neg h3]
        rw [hpp, processPair, hsp]
        simp only [if_neg h2, if_neg h3]

/-! ### Theorems: a full pass reaches a fixed point (claim C7) -/

/-- The written race1 is always a variant of race1. -/
theorem processPair_fst_mem {r1 r2 : Race} :
    (processPair r1 r2).1 ∈ raceVariants r1 := by
  rw [processPair]
  rcases hsp : sharedPair r1 r2 with _ | ⟨c1, c2⟩
  · exact List.mem_cons_self r1 _
  · simp only
    by_cases h2 : alignedCount r1 r2 c1 c2 = 2
    · rw [if_pos h2]; exact List.mem_cons_self r1 _
    · rw [if_neg h2]
      by_cases h3 : alignedCount r1 r2 c1 c2 < (bestCombo r1 r2 c1 c2).2.2
      · rw [if_pos h3]; exact (bestCombo_mem r1 r2 c1 c2).1
      · rw [if_neg h3]; exact List.mem_cons_self r1 _

/-- A pair processed without improvement is returned unchanged. -/
theorem processPair_flag_false {r1 r2 : Race}
    (h : (processPair r1 r2).2.2 = false) :
    processPair r1 r2 = (r1, r2, false) := by
  rcases hsp : sharedPair r1 r2 with _ | ⟨c1, c2⟩
  · rw [processPair, hsp]
  · rw [processPair, hsp] at h ⊢
    simp only at h ⊢
    by_cases h2 : alignedCount r1 r2 c1 c2 = 2
    · rw [if_pos h2]
    · rw [if_neg h2] at h ⊢
      by_cases h3 : alignedCount r1 r2 c1 c2 < (bestCombo r1 r2 c1 c2).2.2
      · rw [if_pos h3] at h; simp at h
      · rw [if_neg h3]

/-- Under the distinctness invariant one pass step only rewrites
position i+1, with the processed pair value. -/
theorem passStep_action {L : List Race} {i : Nat} {r1 r2 : Race}
    (h1 : L[i]? = some r1) (h2 : L[i + 1]? = some r2)
    (hd1 : r1.distinctFour) (hd2 : r2.distinctFour) :
    (passStep L i).1 = L.set (i + 1) (processPair r1 r2).2.1 := by
  rw [passStep, h1, h2]
  simp only
  by_cases h3 : (processPair r1 r2).2.2 = true
  · rw [if_pos h3]
    simp only
    rw [processPair_fst hd1 hd2, set_self_of_getElem? L i r1 h1]
  · have hfalse : (processPair r1 r2).2.2 = false := by
      revert h3; cases (processPair r1 r2).2.2 <;> simp
    rw [if_neg h3]
    simp only
    rw [processPair_flag_false hfalse]
    exact (set_self_of_getElem? L (i + 1) r2 h2).symm

/-- A pass step keeps the group length. -/
theorem passStep_length (L : List Race) (i : Nat) :
    (passStep L i).1.length = L.length := by
  rw [passStep]
  rcases h1 : L[i]? with _ | r1
  · rfl
  · rcases h2 : L[i + 1]? with _ | r2
    · rfl
    · simp only
      by_cases h3 : (processPair r1 r2).2.2 = true
      · simp [h3]
      · simp [h3]

/-- A pass step keeps the distinctness invariant. -/
theorem passStep_distinct {L : List Race} (hL : ∀ r ∈ L, r.distinctFour)
    (i : Nat) : ∀ r ∈ (passStep L i).1, r.distinctFour := by
  rw [passStep]
  rcases h1 : L[i]? with _ | r1
  · exact hL
  · rcases h2 : L[i + 1]? with _ | r2
    · exact hL
    · simp only
      by_cases h3 : (processPair r1 r2).2.2 = true
      · rw [if_pos h3]
        intro r hr
        rcases List.mem_or_eq_of_mem_set hr with hr2 | rfl
        · rcases List.mem_or_eq_of_mem_set hr2 with hr3 | rfl
          · exact hL r hr3
          · exact distinctFour_variants processPair_fst_mem
              (hL r1 (List.getElem?_mem h1))
        · exact distinctFour_variants processPair_snd_mem
            (hL r2 (List.getElem?_mem h2))
      · rw [if_neg h3]; exact hL

/-- passOnce is passFold over the index range. -/
theorem passOnce_eq (L : List Race) :
    passOnce L = passFold (L, false) (List.range (L.length - 1)) := rfl

/-- passFold distributes over index-list concatenation. -/
theorem passFold_append (st : List Race × Bool) (l1 l2 : List Nat) :
    passFold st (l1 ++ l2) = passFold (passFold st l1) l2 := by
  simp [passFold, List.foldl_append]

/-- Invariant of the pass prefix: distinctness and length are kept, and
all already-processed adjacent pairs are fixed points of the pair
processor. -/
theorem passFold_invariant {L : List Race} (hL : ∀ r ∈ L, r.distinctFour) :
    ∀ k : Nat,
      (∀ r ∈ (passFold (L, false) (List.range k)).1, r.distinctFour)
      ∧ (passFold (L, false) (List.range k)).1.length = L.length
      ∧ (∀ j, j + 1 ≤ k → ∀ r1 r2,
          (passFold (L, false) (List.range k)).1[j]? = some r1 →
          (passFold (L, false) (List.range k)).1[j + 1]? = some r2 →
          processPair r1 r2 = (r1, r2, false)) := by
  intro k
  induction k with
  | zero =>
    refine ⟨hL, rfl, ?_⟩
    intro j hj
    omega
  | succ m ih =>
    obtain ⟨ihd, ihlen, ihdone⟩ := ih
    rw [List.range_succ, passFold_append]
    have hnew : (passFold (passFold (L, false) (List.range m)) [m]).1
        = (passStep (passFold (L, false) (List.range m)).1 m).1 := rfl
    rw [hnew]
    refine ⟨passStep_distinct ihd m,
      (passStep_length _ m).trans ihlen, ?_⟩
    intro j hj r1' r2' hg1 hg2
    rcases hm1 : (passFold (L, false) (List.range m)).1[m]? with _ | r1
    · have hid : (passStep (passFold (L, false) (List.range m)).1 m).1
          = (passFold (L, false) (List.range m)).1 := by rw [passStep, hm1]
      rw [hid] at hg1 hg2
      rcases Nat.lt_or_ge (j + 1) (m + 1) with hlt | hge
      · exact ihdone j (by omega) r1' r2' hg1 hg2
      · have hjm : j = m := by omega
        subst hjm
        rw [hm1] at hg1
        exact absurd hg1 (by simp)
    · rcases hm2 : (passFold (L, false) (List.range m)).1[m + 1]? with _ | r2
      · have hid : (passStep (passFold (L, false) (List.range m)).1 m).1
            = (passFold (L, false) (List.range m)).1 := by rw [passStep, hm1, hm2]
        rw [hid] at hg1 hg2
        rcases Nat.lt_or_ge (j + 1) (m + 1) with hlt | hge
        · exact ihdone j (by omega) r1' r2' hg1 hg2
        · have hjm : j = m := by omega
          subst hjm
          rw [hm2] at hg2
          exact absurd hg2 (by simp)
      · have hd1 : r1.distinctFour := ihd r1 (List.getElem?_mem hm1)
        have hd2 : r2.distinctFour := ihd r2 (List.getElem?_mem hm2)
        rw [passStep_action hm1 hm2 hd1 hd2] at hg1 hg2
        rcases Nat.lt_or_ge (j + 1) (m + 1) with hlt | hge
        · rw [List.getElem?_set_ne (by omega : m + 1 ≠ j)] at hg1
          rw [List.getElem?_set_ne (by omega : m + 1 ≠ j + 1)] at hg2
          exact ihdone j (by omega) r1' r2' hg1 hg2
        · have hjm : j = m := by omega
          subst hjm
          rw [List.getElem?_set_ne (by omega : j + 1 ≠ j)] at hg1
          rw [hm1] at hg1
          have hlen : j + 1 < (passFold (L, false) (List.range j)).1.length := by
            by_contra hcon
            push_neg at hcon
            rw [List.getElem?_eq_none (by simpa [List.length_set] using hcon)] at hg2
            exact absurd hg2 (by simp)
          rw [List.getElem?_set_self hlen] at hg2
          injection hg1 with e1
          injection hg2 with e2
          rw [← e1, ← e2]
          exact processPair_stable hd1 hd2

/-- After one pass, every adjacent pair of the group is a fixed point of
the pair processor. -/
theorem passOnce_done {L : List Race} (hL : ∀ r ∈ L, r.distinctFour) :
    ∀ j r1 r2, (passOnce L).1[j]? = some r1 → (passOnce L).1[j + 1]? = some r2 →
      processPair r1 r2 = (r1, r2, false) := by
  intro j r1 r2 h1 h2
  rw [passOnce_eq] at h1 h2
  obtain ⟨-, hlen, hdone⟩ := passFold_invariant hL (L.length - 1)
  have hj : j + 1 ≤ L.length - 1 := by
    have hb : j + 1 < (passFold (L, false) (List.range (L.length - 1))).1.length := by
      by_contra hcon
      push_neg at hcon
      rw [List.getElem?_eq_none hcon] at h2
      exact absurd h2 (by simp)
    rw [hlen] at hb
    omega
  exact hdone j hj r1 r2 h1 h2

/-- A pass over a group whose adjacent pairs are all fixed points does
nothing and reports no improvement. -/
theorem passOnce_of_done {L : List Race}
    (h : ∀ j r1 r2, L[j]? = some r1 → L[j + 1]? = some r2 →
      processPair r1 r2 = (r1, r2, false)) :
    passOnce L = (L, false) := by
  rw [passOnce_eq]
  have main : ∀ idxs : List Nat, passFold (L, false) idxs = (L, false) := by
    intro idxs
    induction idxs with
    | nil => rfl
    | cons i rest ih =>
      have hstep : passStep L i = (L, false) := by
        rcases h1 : L[i]? with _ | r1
        · rw [passStep, h1]
        · rcases h2 : L[i + 1]? with _ | r2
          · rw [passStep, h1, h2]
          · rw [passStep, h1, h2]
            simp only
            rw [h i r1 r2 h1 h2]
            simp
      have hcons : passFold (L, false) (i :: rest) = passFold (L, false) rest := by
        simp [passFold, List.foldl_cons, hstep]
      rw [hcons, ih]
  exact main _

/-- After the first pass of each group, the remaining passes of
_optimize_double_outings change nothing: the whole loop acts as a single
pass. -/
theorem passes_five_eq {a b : List Race} (ha : ∀ r ∈ a, r.distinctFour)
    (hb : ∀ r ∈ b, r.distinctFour) :
    passes 5 a b = ((passOnce a).1, (passOnce b).1) := by
  have hA := passOnce_of_done (passOnce_done ha)
  have hB := passOnce_of_done (passOnce_done hb)
  rw [show (5 : Nat) = 4 + 1 from rfl, passes]
  by_cases h : ((passOnce a).2 || (passOnce b).2) = true
  · simp only [h, if_true]
    rw [show (4 : Nat) = 3 + 1 from rfl, passes, hA, hB]
    simp
  · rw [if_neg h]

/-! ### Theorems: stable sorting interacts with filtering and sorted
inputs (claim C7) -/

/-- Inserting below every key prepends. -/
theorem insertRace_front {x : Race} {l : List Race}
    (h : ∀ y ∈ l, ¬ y.race_number < x.race_number) :
    insertRace x l = x :: l := by
  cases l with
  | nil => rfl
  | cons s rest => rw [insertRace, if_neg (h s (List.mem_cons_self s rest))]

/-- Membership through stable insertion. -/
theorem mem_insertRace {x y : Race} {l : List Race} :
    y ∈ insertRace x l ↔ y = x ∨ y ∈ l := by
  rw [(insertRace_perm x l).mem_iff, List.mem_cons]

/-- Stable insertion keeps sortedness. -/
theorem sortedByNum_insertRace {x : Race} :
    ∀ {l : List Race}, sortedByNum l → sortedByNum (insertRace x l) := by
  intro l
  induction l with
  | nil => intro _; exact List.pairwise_singleton _ _
  | cons s rest ih =>
    intro h
    obtain ⟨hs, hrest⟩ := List.pairwise_cons.mp h
    rw [insertRace]
    by_cases hc : s.race_number < x.race_number
    · rw [if_pos hc]
      refine List.pairwise_cons.mpr ⟨?_, ih hrest⟩
      intro y hy
      rcases mem_insertRace.mp hy with rfl | hy2
      · exact Nat.le_of_lt hc
      · exact hs y hy2
    · rw [if_neg hc]
      refine List.pairwise_cons.mpr ⟨?_, h⟩
      intro y hy
      rcases List.mem_cons.mp hy with rfl | hy2
      · exact Nat.le_of_not_lt hc
      · exact (Nat.le_of_not_lt hc).trans (hs y hy2)

/-- The sort really sorts. -/
theorem sortByNum_sorted (l : List Race) : sortedByNum (sortByNum l) := by
  induction l with
  | nil => exact List.Pairwise.nil
  | cons x xs ih =>
    rw [sortByNum, List.foldr_cons]
    exact sortedByNum_insertRace ih

/-- Sorting a sorted list is the identity (stability of the embedded
sort on already-sorted groups). -/
theorem sortByNum_of_sorted : ∀ {l : List Race}, sortedByNum l → sortByNum l = l := by
  intro l
  induction l with
  | nil => intro _; rfl
  | cons x xs ih =>
    intro h
    obtain ⟨hx, hxs⟩ := List.pairwise_cons.mp h
    rw [sortByNum, List.foldr_cons,
      show xs.foldr insertRace [] = sortByNum xs from rfl, ih hxs]
    exact insertRace_front (fun y hy => Nat.not_lt.mpr (hx y hy))

/-- Filtering commutes with stable insertion into a sorted list. -/
theorem filter_insertRace {p : Race → Bool} {x : Race} :
    ∀ {S : List Race}, sortedByNum S →
      (insertRace x S).filter p
        = if p x then insertRace x (S.filter p) else S.filter p := by
  intro S
  induction S with
  | nil =>
    intro _
    by_cases hp : p x <;> simp [insertRace, hp]
  | cons s S2 ih =>
    intro hS
    obtain ⟨hs, hS2⟩ := List.pairwise_cons.mp hS
    rw [insertRace]
    by_cases hc : s.race_number < x.race_number
    · rw [if_pos hc]
      by_cases hps : p s
      · by_cases hpx : p x
        · have hins : insertRace x (s :: S2.filter p)
              = s :: insertRace x (S2.filter p) := by
            rw [insertRace, if_pos hc]
          simp [List.filter_cons, hps, hpx, ih hS2, hins]
        · simp [List.filter_cons, hps, hpx, ih hS2]
      · by_cases hpx : p x
        · simp [List.filter_cons, hps, hpx, ih hS2]
        · simp [List.filter_cons, hps, hpx, ih hS2]
    · rw [if_neg hc]
      by_cases hpx : p x
      · have hfront : insertRace x ((s :: S2).filter p)
            = x :: (s :: S2).filter p := by
          refine insertRace_front ?_
          intro y hy
          rcases List.mem_filter.mp hy with ⟨hymem, -⟩
          rcases List.mem_cons.mp hymem with rfl | hy2
          · exact hc
          · intro hcon
            exact hc (Nat.lt_of_le_of_lt (hs y hy2) hcon)
        rw [if_pos hpx, hfront, List.filter_cons, if_pos hpx]
      · simp [List.filter_cons, hpx]

/-- Filtering commutes with the stable sort. -/
theorem filter_sortByNum (p : Race → Bool) (l : List Race) :
    (sortByNum l).filter p = sortByNum (l.filter p) := by
  induction l with
  | nil => rfl
  | cons x xs ih =>
    rw [sortByNum, List.foldr_cons,
      show xs.foldr insertRace [] = sortByNum xs from rfl,
      filter_insertRace (sortByNum_sorted xs), ih, List.filter_cons]
    by_cases hp : p x
    · simp only [hp, if_true]
      rfl
    · simp [hp]

/-- Equal key lists give equal race-number lists. -/
theorem map_num_eq_of_map_key_eq {l m : List Race}
    (h : l.map raceKey = m.map raceKey) :
    l.map Race.race_number = m.map Race.race_number := by
  have h2 := congrArg
    (List.map (fun k : Nat × BoatSet × Finset Comp × Finset Comp => k.1)) h
  simpa [List.map_map, Function.comp, raceKey] using h2

/-- Sortedness by number only depends on the number list. -/
theorem sortedByNum_iff_map (l : List Race) :
    sortedByNum l ↔ List.Pairwise (· ≤ ·) (l.map Race.race_number) := by
  rw [List.pairwise_map]
  rfl

/-- A member of a list with the same key list as another list shares its
boat set with some member there. -/
theorem boat_mem_of_key_eq {l m : List Race}
    (h : l.map raceKey = m.map raceKey) {r : Race} (hr : r ∈ l) :
    ∃ s ∈ m, s.boat_set = r.boat_set := by
  have hmem : raceKey r ∈ m.map raceKey := by
    rw [← h]
    exact List.mem_map_of_mem raceKey hr
  obtain ⟨s, hs, hkey⟩ := List.mem_map.mp hmem
  refine ⟨s, hs, ?_⟩
  have := congrArg (fun k : Nat × BoatSet × Finset Comp × Finset Comp => k.2.1) hkey
  simpa [raceKey] using this

/-- The optimiser fixes the stable sort of two groups that are sorted,
homogeneous in boat set, and individually pass-stable. -/
theorem optimizeDoubleOutings_fixed {A1 B1 : List Race}
    (hsortA : sortedByNum A1) (hsortB : sortedByNum B1)
    (hboatA : ∀ r ∈ A1, r.boat_set = BoatSet.A)
    (hboatB : ∀ r ∈ B1, r.boat_set = BoatSet.B)
    (hdoneA : passOnce A1 = (A1, false))
    (hdoneB : passOnce B1 = (B1, false)) :
    optimizeDoubleOutings (sortByNum (A1 ++ B1)) = sortByNum (A1 ++ B1) := by
  simp only [optimizeDoubleOutings]
  have hfA : (sortByNum (A1 ++ B1)).filter (fun r => r.boat_set == BoatSet.A)
      = A1 := by
    rw [filter_sortByNum, List.filter_append,
      List.filter_eq_self.mpr (fun r hr => by simp [hboatA r hr]),
      List.filter_eq_nil_iff.mpr (fun r hr => by simp [hboatB r hr]),
      List.append_nil, sortByNum_of_sorted hsortA]
  have hfB : (sortByNum (A1 ++ B1)).filter (fun r => r.boat_set == BoatSet.B)
      = B1 := by
    rw [filter_sortByNum, List.filter_append,
      List.filter_eq_nil_iff.mpr (fun r hr => by simp [hboatA r hr]),
      List.filter_eq_self.mpr (fun r hr => by simp [hboatB r hr]),
      List.nil_append, sortByNum_of_sorted hsortB]
  rw [hfA, hfB, sortByNum_of_sorted hsortA, sortByNum_of_sorted hsortB]
  have hp : passes 5 A1 B1 = (A1, B1) := by
    rw [show (5 : Nat) = 4 + 1 from rfl, passes]
    simp [hdoneA, hdoneB]
  rw [hp]

/-- Claim C7.  The alignment optimiser is idempotent on every race list
satisfying the data-model invariant that the four competitors of each
race are pairwise distinct: applying _optimize_double_outings to its own
output returns that output unchanged. -/
theorem optimize_idempotent (races : List Race)
    (hdist : ∀ r ∈ races, r.distinctFour) :
    optimizeDoubleOutings (optimizeDoubleOutings races)
      = optimizeDoubleOutings races := by
  have hdA : ∀ r ∈ sortByNum (races.filter (fun r => r.boat_set == BoatSet.A)),
      r.distinctFour := fun r hr =>
    hdist r (List.mem_filter.mp ((sortByNum_perm _).mem_iff.mp hr)).1
  have hdB : ∀ r ∈ sortByNum (races.filter (fun r => r.boat_set == BoatSet.B)),
      r.distinctFour := fun r hr =>
    hdist r (List.mem_filter.mp ((sortByNum_perm _).mem_iff.mp hr)).1
  have hfirst : optimizeDoubleOutings races
      = sortByNum
          ((passOnce (sortByNum
            (races.filter (fun r => r.boat_set == BoatSet.A)))).1
          ++ (passOnce (sortByNum
            (races.filter (fun r => r.boat_set == BoatSet.B)))).1) := by
    simp only [optimizeDoubleOutings]
    rw [passes_five_eq hdA hdB]
  rw [hfirst]
  refine optimizeDoubleOutings_fixed ?_ ?_ ?_ ?_ ?_ ?_
  · rw [sortedByNum_iff_map, map_num_eq_of_map_key_eq (passOnce_keys _)]
    exact (sortedByNum_iff_map _).mp (sortByNum_sorted _)
  · rw [sortedByNum_iff_map, map_num_eq_of_map_key_eq (passOnce_keys _)]
    exact (sortedByNum_iff_map _).mp (sortByNum_sorted _)
  · intro r hr
    obtain ⟨s, hs, hb⟩ := boat_mem_of_key_eq (passOnce_keys _) hr
    have hsf := (sortByNum_perm _).mem_iff.mp hs
    have hsb := (List.mem_filter.mp hsf).2
    rw [← hb]
    simpa using hsb
  · intro r hr
    obtain ⟨s, hs, hb⟩ := boat_mem_of_key_eq (passOnce_keys _) hr
    have hsf := (sortByNum_perm _).mem_iff.mp hs
    have hsb := (List.mem_filter.mp hsf).2
    rw [← hb]
    simpa using hsb
  · exact passOnce_of_done (passOnce_done hdA)
  · exact passOnce_of_done (passOnce_done hdB)

/-- Witness for C7: the optimiser is idempotent on a concrete two-race
schedule whose races each involve four distinct competitors. -/
theorem optimize_idempotent_witness :
    (∀ r ∈ [mkRace 1 .A 0 1 2 3, mkRace 2 .B 4 5 6 7], r.distinctFour)
    ∧ optimizeDoubleOutings (optimizeDoubleOutings
        [mkRace 1 .A 0 1 2 3, mkRace 2 .B 4 5 6 7])
      = optimizeDoubleOutings [mkRace 1 .A 0 1 2 3, mkRace 2 .B 4 5 6 7] :=
  ⟨by decide, optimize_idempotent _ (by decide)⟩

/-! ### Theorems: race numbering and boat alternation (claim C5) -/

/-- The chain builder stamps exactly the requested race numbers, in
order, and the requested boat set. -/
theorem generateChainRaces_nums (bs : BoatSet) :
    ∀ (nums : List Nat) (idx : Nat) (comps : List Comp) (u : Used)
      (rs : List Race) (u2 : Used),
      generateChainRacesGo bs nums idx comps u = some (rs, u2) →
      rs.map Race.race_number = nums ∧ ∀ r ∈ rs, r.boat_set = bs := by
  intro nums
  induction nums with
  | nil =>
    intro idx comps u rs u2 h
    simp only [generateChainRacesGo, Option.some.injEq, Prod.mk.injEq] at h
    rw [← h.1]
    exact ⟨rfl, by simp⟩
  | cons n t ih =>
    intro idx comps u rs u2 h
    rw [generateChainRacesGo] at h
    rcases hg : chainGroups12[idx]? with _ | g
    · rw [hg] at h
      simp only [Option.bind_eq_bind, Option.none_bind] at h
      exact absurd h (by simp)
    rw [hg] at h
    simp only [Option.bind_eq_bind, Option.some_bind] at h
    rcases hrc : mapIndex comps g with _ | rc
    · rw [hrc] at h
      simp only [Option.none_bind] at h
      exact absurd h (by simp)
    rw [hrc] at h
    simp only [Option.some_bind] at h
    rcases htm : formTeamsOptimally rc u with _ | tm
    · rw [htm] at h
      simp only [Option.none_bind] at h
      exact absurd h (by simp)
    obtain ⟨ta, tb⟩ := tm
    rw [htm] at h
    simp only [Option.some_bind] at h
    rcases hrest : generateChainRacesGo bs t (idx + 1) comps (updateUsed u ta tb)
        with _ | pr
    · rw [hrest] at h
      simp only [Option.none_bind] at h
      exact absurd h (by simp)
    obtain ⟨rrest, urest⟩ := pr
    rw [hrest] at h
    simp only [Option.some_bind, Option.some.injEq, Prod.mk.injEq] at h
    obtain ⟨hm, hb⟩ := ih (idx + 1) comps (updateUsed u ta tb) rrest urest hrest
    rw [← h.1]
    refine ⟨by simp [hm], ?_⟩
    intro r hr
    rcases List.mem_cons.mp hr with rfl | hr2
    · rfl
    · exact hb r hr2

/-- The twelve race numbers of a round are the twelve consecutive
integers from round_start, boat A taking the odd round-relative slots
and boat B the even ones. -/
theorem roundNums_perm (rn : Nat) :
    List.Perm (boatANums rn ++ boatBNums rn)
      (List.range' (rn * 12 + 1) 12) := by
  have hA : boatANums rn ++ boatBNums rn
      = [1, 3, 5, 7, 9, 11, 2, 4, 6, 8, 10, 12].map (fun k => rn * 12 + k) := by
    simp only [boatANums, boatBNums,
      show List.range 6 = [0, 1, 2, 3, 4, 5] from rfl, List.map_cons,
      List.map_nil, List.cons_append, List.nil_append, List.cons.injEq]
  have hR : List.range' (rn * 12 + 1) 12
      = [1, 2, 3, 4, 5, 6, 7, 8, 9, 10, 11, 12].map (fun k => rn * 12 + k) := by
    rw [List.range'_eq_map_range]
    simp only [show List.range 12 = [0, 1, 2, 3, 4, 5, 6, 7, 8, 9, 10, 11] from rfl,
      List.map_cons, List.map_nil, List.cons.injEq]
  rw [hA, hR]
  exact List.Perm.map _ (by decide)

/-- The round loop produces the consecutive race numbers of its rounds,
as a permutation, with boat A exactly on the odd numbers. -/
theorem tryGenGo_nums (asg : Nat → Option (List Comp × List Comp)) :
    ∀ (n rn : Nat) (u : Used) (L : List Race),
      tryGenGo asg n rn u = some L →
      List.Perm (L.map Race.race_number) (List.range' (rn * 12 + 1) (12 * n))
      ∧ ∀ r ∈ L, (r.boat_set = BoatSet.A ↔ r.race_number % 2 = 1) := by
  intro n
  induction n with
  | zero =>
    intro rn u L h
    simp only [tryGenGo, Option.some.injEq] at h
    rw [← h]
    exact ⟨by simp, by simp⟩
  | succ m ih =>
    intro rn u L h
    rw [tryGenGo] at h
    rcases hasg : asg rn with _ | ab
    · rw [hasg] at h
      simp only [Option.bind_eq_bind, Option.none_bind] at h
      exact absurd h (by simp)
    obtain ⟨ac, bc⟩ := ab
    rw [hasg] at h
    simp only [Option.bind_eq_bind, Option.some_bind] at h
    rcases ha : generateChainRacesCareful BoatSet.A (boatANums rn) ac u with _ | pa
    · rw [ha] at h
      simp only [Option.none_bind] at h
      exact absurd h (by simp)
    obtain ⟨ar, u1⟩ := pa
    rw [ha] at h
    simp only [Option.some_bind] at h
    rcases hb : generateChainRacesCareful BoatSet.B (boatBNums rn) bc u1 with _ | pb
    · rw [hb] at h
      simp only [Option.none_bind] at h
      exact absurd h (by simp)
    obtain ⟨br, u2⟩ := pb
    rw [hb] at h
    simp only [Option.some_bind] at h
    rcases hrest : tryGenGo asg m (rn + 1) u2 with _ | rest
    · rw [hrest] at h
      simp only [Option.none_bind] at h
      exact absurd h (by simp)
    rw [hrest] at h
    simp only [Option.some_bind, Option.some.injEq] at h
    obtain ⟨har, hba⟩ := generateChainRaces_nums BoatSet.A (boatANums rn) 0 ac u ar u1 ha
    obtain ⟨hbr, hbb⟩ := generateChainRaces_nums BoatSet.B (boatBNums rn) 0 bc u1 br u2 hb
    obtain ⟨hrperm, hrpar⟩ := ih (rn + 1) u2 rest hrest
    rw [← h]
    constructor
    · rw [List.map_append, List.map_append, har, hbr, List.append_assoc]
      have hsplit : List.range' (rn * 12 + 1) (12 * (m + 1))
          = List.range' (rn * 12 + 1) 12
            ++ List.range' ((rn + 1) * 12 + 1) (12 * m) := by
        have e1 : (rn + 1) * 12 + 1 = rn * 12 + 1 + 1 * 12 := by ring
        have e2 : 12 * (m + 1) = 12 * m + 12 := by ring
        rw [e1, e2, List.range'_append]
      rw [hsplit, ← List.append_assoc]
      refine List.Perm.append ?_ hrperm
      rw [List.append_assoc] at *
      exact roundNums_perm rn
    · intro r hr
      have hr0 : r ∈ ar ∨ r ∈ br ∨ r ∈ rest := by
        simpa [List.mem_append, or_assoc] using hr
      rcases hr0 with hr1 | hr2 | hr3
      · have hbs := hba r hr1
        have hnum : r.race_number ∈ boatANums rn := by
          rw [← har]; exact List.mem_map_of_mem _ hr1
        obtain ⟨i, hi, he⟩ := List.mem_map.mp hnum
        have hi6 : i < 6 := List.mem_range.mp hi
        constructor
        · intro _; omega
        · intro _; exact hbs
      · have hbs := hbb r hr2
        have hnum : r.race_number ∈ boatBNums rn := by
          rw [← hbr]; exact List.mem_map_of_mem _ hr2
        obtain ⟨i, hi, he⟩ := List.mem_map.mp hnum
        have hi6 : i < 6 := List.mem_range.mp hi
        constructor
        · intro hA
          exact absurd (hbs.symm.trans hA) (by simp)
        · intro hodd
          omega
      · exact hrpar r hr3

/-- What _try_generate_chain_schedule guarantees about race numbering
when the race count is a multiple of twelve. -/
theorem tryGen_nums (cfg : Config)
    (asg : Nat → Option (List Comp × List Comp)) (races : List Race)
    (h : tryGenerateChainSchedule cfg asg = some races)
    (hdiv : cfg.numRaces % 12 = 0) :
    races.map Race.race_number = List.range' 1 cfg.numRaces
    ∧ sortedByNum races
    ∧ ∀ r ∈ races, (r.boat_set = BoatSet.A ↔ r.race_number % 2 = 1) := by
  rw [tryGenerateChainSchedule] at h
  rcases hL : tryGenGo asg (cfg.numRaces / 12) 0 (fun _ _ => false) with _ | L
  · rw [hL] at h; exact absurd h (by simp)
  rw [hL] at h
  simp only [Option.map_some', Option.some.injEq] at h
  obtain ⟨hperm, hpar⟩ := tryGenGo_nums asg (cfg.numRaces / 12) 0 _ L hL
  have hfull : 12 * (cfg.numRaces / 12) = cfg.numRaces :=
    Nat.mul_div_cancel' (Nat.dvd_of_mod_eq_zero hdiv)
  rw [show (0 : Nat) * 12 + 1 = 1 from rfl, hfull] at hperm
  rw [← h]
  refine ⟨?_, sortByNum_sorted L, ?_⟩
  · have hperm2 : List.Perm ((sortByNum L).map Race.race_number)
        (List.range' 1 cfg.numRaces) :=
      ((sortByNum_perm L).map _).trans hperm
    exact List.eq_of_perm_of_sorted hperm2
      ((sortedByNum_iff_map _).mp (sortByNum_sorted L))
      ((List.pairwise_lt_range' _ _).imp Nat.le_of_lt)
  · intro r hr
    exact hpar r ((sortByNum_perm L).mem_iff.mp hr)

/-- Claim C5.  Every candidate produced by a seed of generate_schedule
(tryGen followed by the alignment optimiser) has race numbers exactly
1..num_races in order, with boat set A in every odd-numbered race and
boat set B in every even-numbered race, whenever the configured race
count is a multiple of twelve (true of both 96-race presets; the 90-race
configurations never return a schedule, see the assignment crash). -/
theorem generated_numbering (cfg : Config)
    (asg : Nat → Option (List Comp × List Comp)) (races : List Race)
    (hdiv : cfg.numRaces % 12 = 0)
    (h : generateAttempt cfg asg = some races) :
    races.map Race.race_number = List.range' 1 cfg.numRaces
    ∧ ∀ r ∈ races, (r.boat_set = BoatSet.A ↔ r.race_number % 2 = 1) := by
  rw [generateAttempt] at h
  rcases ht : tryGenerateChainSchedule cfg asg with _ | base
  · rw [ht] at h; exact absurd h (by simp)
  rw [ht] at h
  simp only [Option.map_some', Option.some.injEq] at h
  obtain ⟨hnums, hsort, hpar⟩ := tryGen_nums cfg asg base ht hdiv
  have hnodup : (base.map Race.race_number).Nodup := by
    rw [hnums]; exact List.nodup_range' 1 cfg.numRaces
  have hpermNB : List.Perm ((optimizeDoubleOutings base).map numBoat)
      (base.map numBoat) := by
    have hk := (optimize_keys_perm base).map
      (fun k : Nat × BoatSet × Finset Comp × Finset Comp => (k.1, k.2.1))
    rw [List.map_map, List.map_map] at hk
    exact hk
  have hpermNum : List.Perm ((optimizeDoubleOutings base).map Race.race_number)
      (base.map Race.race_number) := by
    have hk := hpermNB.map Prod.fst
    rw [List.map_map, List.map_map] at hk
    exact hk
  have hstrict_base : List.Pairwise numLt (base.map numBoat) := by
    rw [List.pairwise_map]
    have hne : List.Pairwise
        (fun a b : Race => a.race_number ≠ b.race_number) base := by
      have := hnodup
      rw [List.Nodup, List.pairwise_map] at this
      exact this
    exact (hsort.and hne).imp (fun hab => Nat.lt_of_le_of_ne hab.1 hab.2)
  have hstrict_opt : List.Pairwise numLt ((optimizeDoubleOutings base).map numBoat) := by
    rw [List.pairwise_map]
    have hsort2 : sortedByNum (optimizeDoubleOutings base) := sortByNum_sorted _
    have hnodup2 : ((optimizeDoubleOutings base).map Race.race_number).Nodup :=
      hpermNum.nodup_iff.mpr hnodup
    have hne : List.Pairwise
        (fun a b : Race => a.race_number ≠ b.race_number)
        (optimizeDoubleOutings base) := by
      rw [List.Nodup, List.pairwise_map] at hnodup2
      exact hnodup2
    exact (hsort2.and hne).imp (fun hab => Nat.lt_of_le_of_ne hab.1 hab.2)
  have hnb : (optimizeDoubleOutings base).map numBoat = base.map numBoat :=
    List.eq_of_perm_of_sorted hpermNB hstrict_opt hstrict_base
  rw [← h]
  constructor
  · have hfst := congrArg (List.map Prod.fst) hnb
    rw [List.map_map, List.map_map] at hfst
    exact hfst.trans hnums
  · intro r hr
    have hmem : numBoat r ∈ base.map numBoat := by
      rw [← hnb]
      exact List.mem_map_of_mem numBoat hr
    obtain ⟨s, hs, hkey⟩ := List.mem_map.mp hmem
    have hnum : s.race_number = r.race_number :=
      congrArg Prod.fst hkey
    have hboat : s.boat_set = r.boat_set :=
      congrArg Prod.snd hkey
    rw [← hnum, ← hboat]
    exact hpar s hs

/-! ### Theorems: the driver's best-candidate selection (claim C2) -/

/-- Counterexample to claim C2 as stated: the schedule z1 passes the
acceptance gate at seed 0 of a one-seed budget, yet the driver loop ends
with the terminal failure (some none = the RuntimeError).  best score
starts at 0 and only strictly larger scores are kept, so an accepted
candidate whose proper-double-outing count is 0 is never returned. -/
theorem loop_drops_zero_score_cex :
    acceptanceGate cfg1 (rosterList cfg1) z1 = some true
    ∧ properDoubleOutingsTotal (rosterList cfg1) z1 = 0
    ∧ generateScheduleLoop cfg1 (fun _ => some z1) 1 = some none := by
  decide

/-- The seed fold either keeps its accumulator (and then no processed
accepted candidate beat the running score) or ends on the earliest
maximal-scoring accepted candidate that beat it. -/
theorem runSeedsGo_spec (cfg : Config) (attempt : Nat → Option Schedule) :
    ∀ (n i : Nat) (acc : Option Schedule × Nat),
      (∀ k, i ≤ k → k < i + n → ∀ s, attempt k = some s →
        acceptanceGate cfg (rosterList cfg) s ≠ none) →
      ∃ acc2, runSeedsGo cfg attempt (List.range' i n) acc = some acc2
        ∧ ((acc2 = acc
              ∧ ∀ k s, i ≤ k → k < i + n → attempt k = some s →
                  acceptanceGate cfg (rosterList cfg) s = some true →
                  properDoubleOutingsTotal (rosterList cfg) s ≤ acc.2)
          ∨ (∃ k s, i ≤ k ∧ k < i + n ∧ attempt k = some s
              ∧ acceptanceGate cfg (rosterList cfg) s = some true
              ∧ acc2 = (some s, properDoubleOutingsTotal (rosterList cfg) s)
              ∧ acc.2 < properDoubleOutingsTotal (rosterList cfg) s
              ∧ (∀ j t, i ≤ j → j < i + n → attempt j = some t →
                  acceptanceGate cfg (rosterList cfg) t = some true →
                  properDoubleOutingsTotal (rosterList cfg) t
                    ≤ properDoubleOutingsTotal (rosterList cfg) s)
              ∧ (∀ j t, i ≤ j → j < k → attempt j = some t →
                  acceptanceGate cfg (rosterList cfg) t = some true →
                  properDoubleOutingsTotal (rosterList cfg) t
                    < properDoubleOutingsTotal (rosterList cfg) s))) := by
  intro n
  induction n with
  | zero =>
    intro i acc _
    refine ⟨acc, by simp [runSeedsGo], Or.inl ⟨rfl, ?_⟩⟩
    intro k s hk1 hk2 _ _
    omega
  | succ m ih =>
    intro i acc hnc
    have hnc2 : ∀ k, i + 1 ≤ k → k < i + 1 + m → ∀ s, attempt k = some s →
        acceptanceGate cfg (rosterList cfg) s ≠ none :=
      fun k hk1 hk2 s hs => hnc k (by omega) (by omega) s hs
    rw [List.range'_succ]
    rcases hat : attempt i with _ | s
    · have hstep : seedStep cfg attempt acc i = some acc := by
        simp only [seedStep, hat]
      have hrun : runSeedsGo cfg attempt (i :: List.range' (i + 1) m) acc
          = runSeedsGo cfg attempt (List.range' (i + 1) m) acc := by
        rw [runSeedsGo, hstep]
      obtain ⟨acc2, hrun2, hcase⟩ := ih (i + 1) acc hnc2
      refine ⟨acc2, hrun.trans hrun2, ?_⟩
      rcases hcase with ⟨heq, hall⟩ | ⟨k, s', hk1, hk2, hats, hgs, heq, hlt, hall, hearly⟩
      · refine Or.inl ⟨heq, ?_⟩
        intro k s hk1 hk2 hks hgk
        rcases Nat.eq_or_lt_of_le hk1 with rfl | hk1'
        · rw [hat] at hks; exact absurd hks (by simp)
        · exact hall k s (by omega) (by omega) hks hgk
      · refine Or.inr ⟨k, s', by omega, by omega, hats, hgs, heq, hlt, ?_, ?_⟩
        · intro j t hj1 hj2 hjt hgt
          rcases Nat.eq_or_lt_of_le hj1 with rfl | hj1'
          · rw [hat] at hjt; exact absurd hjt (by simp)
          · exact hall j t (by omega) (by omega) hjt hgt
        · intro j t hj1 hj2 hjt hgt
          rcases Nat.eq_or_lt_of_le hj1 with rfl | hj1'
          · rw [hat] at hjt; exact absurd hjt (by simp)
          · exact hearly j t (by omega) hj2 hjt hgt
    · rcases hg : acceptanceGate cfg (rosterList cfg) s with _ | b
      · exact absurd hg (hnc i (by omega) (by omega) s hat)
      rcases b with _ | _
      · have hstep : seedStep cfg attempt acc i = some acc := by
          simp only [seedStep, hat, hg]
        have hrun : runSeedsGo cfg attempt (i :: List.range' (i + 1) m) acc
            = runSeedsGo cfg attempt (List.range' (i + 1) m) acc := by
          rw [runSeedsGo, hstep]
        obtain ⟨acc2, hrun2, hcase⟩ := ih (i + 1) acc hnc2
        refine ⟨acc2, hrun.trans hrun2, ?_⟩
        rcases hcase with ⟨heq, hall⟩ | ⟨k, s', hk1, hk2, hats, hgs, heq, hlt, hall, hearly⟩
        · refine Or.inl ⟨heq, ?_⟩
          intro k t hk1 hk2 hkt hgk
          rcases Nat.eq_or_lt_of_le hk1 with rfl | hk1'
          · rw [hat] at hkt
            injection hkt with hkt
            rw [← hkt] at hgk
            rw [hg] at hgk
            exact absurd hgk (by simp)
          · exact hall k t (by omega) (by omega) hkt hgk
        · refine Or.inr ⟨k, s', by omega, by omega, hats, hgs, heq, hlt, ?_, ?_⟩
          · intro j t hj1 hj2 hjt hgt
            rcases Nat.eq_or_lt_of_le hj1 with rfl | hj1'
            · rw [hat] at hjt
              injection hjt with hjt
              rw [← hjt] at hgt
              rw [hg] at hgt
              exact absurd hgt (by simp)
            · exact hall j t (by omega) (by omega) hjt hgt
          · intro j t hj1 hj2 hjt hgt
            rcases Nat.eq_or_lt_of_le hj1 with rfl | hj1'
            · rw [hat] at hjt
              injection hjt with hjt
              rw [← hjt] at hgt
              rw [hg] at hgt
              exact absurd hgt (by simp)
            · exact hearly j t (by omega) hj2 hjt hgt
      · by_cases hlt0 : acc.2 < properDoubleOutingsTotal (rosterList cfg) s
        · have hstep : seedStep cfg attempt acc i
              = some (some s, properDoubleOutingsTotal (rosterList cfg) s) := by
            simp only [seedStep, hat, hg]
            simp [hlt0]
          have hrun : runSeedsGo cfg attempt (i :: List.range' (i + 1) m) acc
              = runSeedsGo cfg attempt (List.range' (i + 1) m)
                  (some s, properDoubleOutingsTotal (rosterList cfg) s) := by
            rw [runSeedsGo, hstep]
          obtain ⟨acc2, hrun2, hcase⟩ :=
            ih (i + 1) (some s, properDoubleOutingsTotal (rosterList cfg) s) hnc2
          refine ⟨acc2, hrun.trans hrun2, Or.inr ?_⟩
          rcases hcase with ⟨heq, hall⟩ | ⟨k, s', hk1, hk2, hats, hgs, heq, hlt, hall, hearly⟩
          · refine ⟨i, s, by omega, by omega, hat, hg, heq, hlt0, ?_, ?_⟩
            · intro j t hj1 hj2 hjt hgt
              rcases Nat.eq_or_lt_of_le hj1 with rfl | hj1'
              · rw [hat] at hjt
                injection hjt with hjt
                rw [← hjt]
              · have := hall j t (by omega) (by omega) hjt hgt
                exact this
            · intro j t hj1 hj2 _ _
              omega
          · refine ⟨k, s', by omega, by omega, hats, hgs, heq, ?_, ?_, ?_⟩
            · exact Nat.lt_trans hlt0 hlt
            · intro j t hj1 hj2 hjt hgt
              rcases Nat.eq_or_lt_of_le hj1 with rfl | hj1'
              · rw [hat] at hjt
                injection hjt with hjt
                rw [← hjt]
                exact Nat.le_of_lt hlt
              · exact hall j t (by omega) (by omega) hjt hgt
            · intro j t hj1 hj2 hjt hgt
              rcases Nat.eq_or_lt_of_le hj1 with rfl | hj1'
              · rw [hat] at hjt
                injection hjt with hjt
                rw [← hjt]
                exact hlt
              · exact hearly j t (by omega) hj2 hjt hgt
        · have hstep : seedStep cfg attempt acc i = some acc := by
            simp only [seedStep, hat, hg]
            simp [hlt0]
          have hrun : runSeedsGo cfg attempt (i :: List.range' (i + 1) m) acc
              = runSeedsGo cfg attempt (List.range' (i + 1) m) acc := by
            rw [runSeedsGo, hstep]
          obtain ⟨acc2, hrun2, hcase⟩ := ih (i + 1) acc hnc2
          refine ⟨acc2, hrun.trans hrun2, ?_⟩
          rcases hcase with ⟨heq, hall⟩ | ⟨k, s', hk1, hk2, hats, hgs, heq, hlt, hall, hearly⟩
          · refine Or.inl ⟨heq, ?_⟩
            intro k t hk1 hk2 hkt hgk
            rcases Nat.eq_or_lt_of_le hk1 with rfl | hk1'
            · rw [hat] at hkt
              injection hkt with hkt
              rw [← hkt]
              omega
            · exact hall k t (by omega) (by omega) hkt hgk
          · refine Or.inr ⟨k, s', by omega, by omega, hats, hgs, heq, hlt, ?_, ?_⟩
            · intro j t hj1 hj2 hjt hgt
              rcases Nat.eq_or_lt_of_le hj1 with rfl | hj1'
              · rw [hat] at hjt
                injection hjt with hjt
                rw [← hjt]
                omega
              · exact hall j t (by omega) (by omega) hjt hgt
            · intro j t hj1 hj2 hjt hgt
              rcases Nat.eq_or_lt_of_le hj1 with rfl | hj1'
              · rw [hat] at hjt
                injection hjt with hjt
                rw [← hjt]
                omega
              · exact hearly j t (by omega) hj2 hjt hgt

/-- Claim C2 (amended).  If some attempted candidate passes the
acceptance gate with a strictly positive proper-double-outing score, and
no gate evaluation raises, then the driver loop returns an accepted
candidate of maximal score, and every earlier accepted candidate scores
strictly less (the earliest-seed tie-break); accepted candidates scoring
0 do not count, because the running best starts at 0 and only strict
improvements are kept. -/
theorem loop_returns_best_accepted (cfg : Config)
    (attempt : Nat → Option Schedule) (budget : Nat)
    (hnc : ∀ k, k < budget → ∀ s, attempt k = some s →
      acceptanceGate cfg (rosterList cfg) s ≠ none)
    (k0 : Nat) (s0 : Schedule) (hk0 : k0 < budget)
    (ha0 : attempt k0 = some s0)
    (hg0 : acceptanceGate cfg (rosterList cfg) s0 = some true)
    (hp0 : 0 < properDoubleOutingsTotal (rosterList cfg) s0) :
    ∃ k s, k < budget ∧ attempt k = some s
      ∧ acceptanceGate cfg (rosterList cfg) s = some true
      ∧ generateScheduleLoop cfg attempt budget = some (some s)
      ∧ (∀ j t, j < budget → attempt j = some t →
          acceptanceGate cfg (rosterList cfg) t = some true →
          properDoubleOutingsTotal (rosterList cfg) t
            ≤ properDoubleOutingsTotal (rosterList cfg) s)
      ∧ (∀ j t, j < k → attempt j = some t →
          acceptanceGate cfg (rosterList cfg) t = some true →
          properDoubleOutingsTotal (rosterList cfg) t
            < properDoubleOutingsTotal (rosterList cfg) s) := by
  obtain ⟨acc2, hrun, hcase⟩ := runSeedsGo_spec cfg attempt budget 0 (none, 0)
    (fun k hk1 hk2 s hs => hnc k (by omega) s hs)
  rcases hcase with ⟨-, hall⟩ | ⟨k, s, hk1, hk2, hat, hg, heq, -, hall, hearly⟩
  · have hcon : properDoubleOutingsTotal (rosterList cfg) s0 ≤ 0 :=
      hall k0 s0 (by omega) (by omega) ha0 hg0
    omega
  · refine ⟨k, s, by omega, hat, hg, ?_, ?_, ?_⟩
    · rw [generateScheduleLoop, List.range_eq_range', hrun, heq]
    · intro j t hj hatj hgj
      exact hall j t (by omega) (by omega) hatj hgj
    · intro j t hj hatj hgj
      exact hearly j t (by omega) hj hatj hgj

/-- Witness for C2 (amended) at a concrete one-seed loop whose only
candidate is accepted with score one. -/
theorem loop_returns_best_accepted_witness :
    (0 < 1
      ∧ acceptanceGate cfg1 (rosterList cfg1) posSched = some true
      ∧ 0 < properDoubleOutingsTotal (rosterList cfg1) posSched)
    ∧ ∃ k s, k < 1 ∧ (fun _ : Nat => some posSched) k = some s
        ∧ acceptanceGate cfg1 (rosterList cfg1) s = some true
        ∧ generateScheduleLoop cfg1 (fun _ => some posSched) 1 = some (some s)
        ∧ (∀ j t, j < 1 → (fun _ : Nat => some posSched) j = some t →
            acceptanceGate cfg1 (rosterList cfg1) t = some true →
            properDoubleOutingsTotal (rosterList cfg1) t
              ≤ properDoubleOutingsTotal (rosterList cfg1) s)
        ∧ (∀ j t, j < k → (fun _ : Nat => some posSched) j = some t →
            acceptanceGate cfg1 (rosterList cfg1) t = some true →
            properDoubleOutingsTotal (rosterList cfg1) t
              < properDoubleOutingsTotal (rosterList cfg1) s) :=
  ⟨⟨by decide, by decide, by decide⟩,
   loop_returns_best_accepted cfg1 (fun _ => some posSched) 1
     (fun k hk s hs => by cases hs; decide)
     0 posSched (by decide) rfl (by decide) (by decide)⟩

/-- Witness for C5: the numbering invariant on a concretely generated
12-race candidate. -/
theorem generated_numbering_witness :
    (c5Cfg.numRaces % 12 = 0
      ∧ generateAttempt c5Cfg c5Asg = some c5Races)
    ∧ (c5Races.map Race.race_number = List.range' 1 c5Cfg.numRaces
      ∧ ∀ r ∈ c5Races, (r.boat_set = BoatSet.A ↔ r.race_number % 2 = 1)) :=
  ⟨⟨by decide, by decide⟩,
   generated_numbering c5Cfg c5Asg c5Races (by decide) (by decide)⟩

/-! ### Theorems: the round-assignment crash (claim C1) -/

/-- The 0-3 reorder never changes the block length. -/
theorem reorder03_length : ∀ l : List Nat, (reorder03 l).length = l.length
  | [] => rfl
  | [_] => rfl
  | [_, _] => rfl
  | [_, _, _] => rfl
  | [_, _, _, _] => rfl
  | _ :: _ :: _ :: _ :: _ :: _ => rfl

/-- All-in-range pair lists make the conflict count succeed. -/
theorem ccPairs_isSome (u : Used) (ord : List Nat) :
    ∀ ps : List (Nat × Nat),
      (∀ p ∈ ps, p.1 < ord.length ∧ p.2 < ord.length) →
      (ccPairs u ord ps).isSome = true := by
  intro ps
  induction ps with
  | nil => intro _; rfl
  | cons q rest ih =>
    rcases q with ⟨i, j⟩
    intro h
    have h1 := (h (i, j) (List.mem_cons_self _ _)).1
    have h2 := (h (i, j) (List.mem_cons_self _ _)).2
    obtain ⟨v, hv⟩ := Option.isSome_iff_exists.mp
      (ih fun p hp => h p (List.mem_cons_of_mem _ hp))
    simp [ccPairs, List.getElem?_eq_getElem h1, List.getElem?_eq_getElem h2, hv]

/-- All-in-range groups make the conflict count succeed. -/
theorem ccGroups_isSome (u : Used) (ord : List Nat) :
    ∀ gs : List (List Nat),
      (∀ g ∈ gs, ∀ p ∈ pairsOf g, p.1 < ord.length ∧ p.2 < ord.length) →
      (ccGroups u ord gs).isSome = true := by
  intro gs
  induction gs with
  | nil => intro _; rfl
  | cons g rest ih =>
    intro h
    obtain ⟨v, hv⟩ := Option.isSome_iff_exists.mp
      (ccPairs_isSome u ord (pairsOf g) (h g (List.mem_cons_self _ _)))
    obtain ⟨w, hw⟩ := Option.isSome_iff_exists.mp
      (ih fun g2 hg2 => h g2 (List.mem_cons_of_mem _ hg2))
    simp [ccGroups, hv, hw]

/-- count_conflicts succeeds on every 12-seat ordering. -/
theorem countConflicts_isSome12 (u : Used) (ord : List Nat)
    (hlen : ord.length = 12) : (countConflicts u ord).isSome = true := by
  refine ccGroups_isSome u ord chainGroups12 ?_
  rw [hlen]
  decide

/-- One out-of-range pair access fails the whole pair count. -/
theorem ccPairs_none_of_oob (u : Used) (ord : List Nat) :
    ∀ ps : List (Nat × Nat),
      (∃ p ∈ ps, ord.length ≤ p.1 ∨ ord.length ≤ p.2) →
      ccPairs u ord ps = none := by
  intro ps
  induction ps with
  | nil =>
    rintro ⟨p, hp, -⟩
    exact absurd hp (List.not_mem_nil p)
  | cons q rest ih =>
    rcases q with ⟨i, j⟩
    rintro ⟨p, hp, hoob⟩
    rcases List.mem_cons.mp hp with rfl | hp2
    · rcases hoob with h1 | h2
      · simp [ccPairs, List.getElem?_eq_none h1]
      · rcases hc1 : ord[i]? with _ | c1
        · simp [ccPairs, hc1]
        · simp [ccPairs, hc1, List.getElem?_eq_none h2]
    · rcases hc1 : ord[i]? with _ | c1
      · simp [ccPairs, hc1]
      rcases hc2 : ord[j]? with _ | c2
      · simp [ccPairs, hc1, hc2]
      simp [ccPairs, hc1, hc2, ih ⟨p, hp2, hoob⟩]

/-- One failing group fails the whole conflict count. -/
theorem ccGroups_none_of_oob (u : Used) (ord : List Nat) :
    ∀ gs : List (List Nat),
      (∃ g ∈ gs, ∃ p ∈ pairsOf g, ord.length ≤ p.1 ∨ ord.length ≤ p.2) →
      ccGroups u ord gs = none := by
  intro gs
  induction gs with
  | nil =>
    rintro ⟨g, hg, -⟩
    exact absurd hg (List.not_mem_nil g)
  | cons g rest ih =>
    rintro ⟨g2, hg2, p, hp, hoob⟩
    rcases List.mem_cons.mp hg2 with rfl | hmem
    · simp [ccGroups, ccPairs_none_of_oob u ord (pairsOf g2) ⟨p, hp, hoob⟩]
    · rcases hv : ccPairs u ord (pairsOf g) with _ | v
      · simp [ccGroups, hv]
      · simp [ccGroups, hv, ih ⟨g2, hmem, p, hp, hoob⟩]

/-- count_conflicts raises on any ordering with at most eight seats:
the chain group [6, 7, 8, 9] reads seat 8. -/
theorem countConflicts_none_of_short (u : Used) (ord : List Nat)
    (hlen : ord.length ≤ 8) : countConflicts u ord = none :=
  ccGroups_none_of_oob u ord chainGroups12
    ⟨[6, 7, 8, 9], by decide, (6, 8), by decide, Or.inr (by omega)⟩

/-- A swap of two in-range seats succeeds and keeps the length. -/
theorem swapIdx_length {l : List Nat} {i j : Nat}
    (hi : i < l.length) (hj : j < l.length) :
    ∃ l2, swapIdx l i j = some l2 ∧ l2.length = l.length := by
  refine ⟨(l.set i l[j]).set j l[i], ?_, by simp⟩
  rw [swapIdx]
  simp [List.getElem?_eq_getElem hi, List.getElem?_eq_getElem hj]

/-- With no boundary constraint and in-range sample picks, the
optimisation loop always completes on a 12-seat ordering with a 12-seat
ordering. -/
theorem optLoop_emptyForb (u : Used) (coin : Nat → Bool)
    (pickLow pickHigh pickFull : Nat → Nat × Nat) (base : Nat)
    (hpick : ∀ k, (pickFull k).1 < 12 ∧ (pickFull k).2 < 12) :
    ∀ (fuel : Nat) (best : List Nat) (bestC : Nat), best.length = 12 →
      ∃ res, optLoop u [] coin pickLow pickHigh pickFull base fuel best bestC
          = some res ∧ res.1.length = 12 := by
  intro fuel
  induction fuel with
  | zero =>
    intro best bestC hlen
    exact ⟨(best, bestC), rfl, hlen⟩
  | succ k ih =>
    intro best bestC hlen
    obtain ⟨l2, hl2, hlen2⟩ := swapIdx_length
      (by rw [hlen]; exact (hpick (base + k)).1)
      (by rw [hlen]; exact (hpick (base + k)).2)
    have hlen12 : l2.length = 12 := by rw [hlen2, hlen]
    obtain ⟨c, hc⟩ := Option.isSome_iff_exists.mp
      (countConflicts_isSome12 u l2 hlen12)
    by_cases hcc : c < bestC
    · obtain ⟨res, hres, hreslen⟩ := ih l2 c hlen12
      refine ⟨res, ?_, hreslen⟩
      simp [optLoop, hl2, hc, hcc, hres, isValidOrd]
    · obtain ⟨res, hres, hreslen⟩ := ih best bestC hlen
      refine ⟨res, ?_, hreslen⟩
      simp [optLoop, hl2, hc, hcc, hres, isValidOrd]

/-- With both boundary sets empty and 20 active competitors, the
position-aware construction yields a 12-seat boat A and an 8-seat boat
B. -/
theorem buildBoats_lengths (sh : Nat → List Nat → List Nat)
    (active : List Nat)
    (hsh : ∀ n l, (sh n l).length = l.length)
    (hlen : active.length = 20) :
    (buildBoats sh active [] []).1.length = 12
    ∧ (buildBoats sh active [] []).2.length = 8 := by
  have hft : ∀ l : List Nat,
      l.filter (fun c => !([] : List Nat).contains c) = l :=
    fun l => List.filter_eq_self.mpr (fun a _ => rfl)
  have hff : ∀ l : List Nat,
      l.filter (fun c => ([] : List Nat).contains c) = [] :=
    fun l => List.filter_eq_nil_iff.mpr (fun a _ => by simp)
  constructor
  · simp [buildBoats, hft, hff, reorder03_length, hsh, hlen]
  · simp [buildBoats, hft, hff, reorder03_length, hsh, hlen]

/-- Claim C1 (code bug).  With both boundary sets empty (round 0) and
20 active competitors (the checked-in constants leave 20 of the 21
competitors active per round), _find_round_assignment raises IndexError
for every sort permutation and every sample outcome: boat B ends up
with eight seats and count_conflicts(best_b) reads seat 8 of chain
group [6, 7, 8, 9].  The exception escapes generate_schedule, which
therefore neither returns a Schedule nor raises the documented terminal
RuntimeError, refuting the claimed error behaviour. -/
theorem findRoundAssignment_crashes
    (sh : Nat → List Nat → List Nat) (coin : Nat → Bool)
    (pickLow pickHigh pickFull : Nat → Nat × Nat) (u : Used)
    (active : List Nat)
    (hsh : ∀ n l, (sh n l).length = l.length)
    (hpick : ∀ k, (pickFull k).1 < 12 ∧ (pickFull k).2 < 12)
    (hlen : active.length = 20) :
    findRoundAssignment sh coin pickLow pickHigh pickFull u active [] []
      = none := by
  obtain ⟨hA0, hB0⟩ := buildBoats_lengths sh active hsh hlen
  have hfall : fallbackBoats sh active (buildBoats sh active [] [])
      = ((sh 5 active).take 12, (sh 5 active).drop 12) := by
    rw [fallbackBoats, if_pos (Or.inr (by omega))]
  have hA : ((sh 5 active).take 12).length = 12 := by
    simp [hsh, hlen]
  have hB : ((sh 5 active).drop 12).length = 8 := by
    simp [hsh, hlen]
  obtain ⟨cA, hcA⟩ := Option.isSome_iff_exists.mp
    (countConflicts_isSome12 u _ hA)
  obtain ⟨resA, hresA, -⟩ :=
    optLoop_emptyForb u coin pickLow pickHigh pickFull 0 hpick 1000 _ cA hA
  have hcB : countConflicts u ((sh 5 active).drop 12) = none :=
    countConflicts_none_of_short u _ (by omega)
  simp [findRoundAssignment, hfall, fixBoat, hcA, hresA, hcB]

/-- Witness for C1: the crash at a concrete randomness outcome (the
identity sort oracle and constant sample picks) on a 20-member active
list. -/
theorem findRoundAssignment_crashes_witness :
    ((∀ (n : Nat) (l : List Nat),
        (((fun _ l => l) : Nat → List Nat → List Nat) n l).length = l.length)
      ∧ (∀ _k : Nat, ((0, 1) : Nat × Nat).1 < 12 ∧ ((0, 1) : Nat × Nat).2 < 12)
      ∧ (List.range 20).length = 20)
    ∧ findRoundAssignment (fun _ l => l) (fun _ => true) (fun _ => (0, 1))
        (fun _ => (4, 5)) (fun _ => (0, 1)) (fun _ _ => false)
        (List.range 20) [] [] = none :=
  ⟨⟨fun _ _ => rfl, fun _ => by decide, by decide⟩,
   findRoundAssignment_crashes (fun _ l => l) (fun _ => true) (fun _ => (0, 1))
     (fun _ => (4, 5)) (fun _ => (0, 1)) (fun _ _ => false) (List.range 20)
     (fun _ _ => rfl)
     (fun _ => (by decide : ((0, 1) : Nat × Nat).1 < 12
        ∧ ((0, 1) : Nat × Nat).2 < 12))
     (by decide)⟩

end Sailing
